import Mathlib

/-!
Verification of the MVCC staging table (`common/mvccdb/staging_table.go`).

The Go source is embedded shallowly:
* byte sequences (keys and values) become `List Nat`;
* the opaque transaction identifier `interface{}` with its `nil` sentinel
  becomes `Option Nat` with `none` as the sentinel;
* the Go maps become association lists (`wsFind` / `wsInsert` reproduce Go
  map lookup and overwrite; the `byteutils.Hex` canonicalization is injective
  on byte sequences, so keying by the raw byte sequence is equivalent);
* the backing store `storage.Get` becomes a function to a result that is a
  value, the distinguished not-found outcome, or an error code;
* the in-place pointer mutation of an entry shared with its workspace map is
  rendered by writing the updated entry back to the workspace it lives in
  (`setTidEntry`); for the `nil` transaction identifier that workspace *is*
  the final workspace, reproducing the aliasing of the source;
* the nil-pointer dereference that `MergeToFinal` performs when a key of the
  transaction's workspace has no final entry is rendered as the distinguished
  outcome `MergeResult.nilDeref`.
-/

namespace MvccDb

/-- Byte sequences: keys. -/
abbrev Key := List Nat

/-- Byte sequences: values. -/
abbrev Val := List Nat

/-- Transaction identifier: `none` models the Go `nil` sentinel. -/
abbrev Tid := Option Nat

/-- `VersionizedValueItem`: key/value pair with version, dirty, deleted flags. -/
structure VersionizedValueItem where
  tid : Tid
  key : Key
  val : Val
  old : Nat
  new : Nat
  deleted : Bool
  dirty : Bool
deriving Repr, DecidableEq

/-- Outcome of one backing-store read (`storage.Get`): a value, the
distinguished not-found outcome (`storage.ErrKeyNotFound`), or another error
identified by a code. -/
inductive StoreResult where
  | found : Val → StoreResult
  | notFound : StoreResult
  | err : Nat → StoreResult
deriving Repr, DecidableEq

/-- A workspace: the Go `stagingValuesMap` (map from canonical key to entry). -/
abbrev WS := List (Key × VersionizedValueItem)

/-- Go map lookup on a workspace: first binding of the key, if any. -/
def wsFind : WS → Key → Option VersionizedValueItem
  | [], _ => none
  | (k0, v0) :: rest, k => if k0 = k then some v0 else wsFind rest k

/-- Go map overwrite on a workspace. -/
def wsInsert : WS → Key → VersionizedValueItem → WS
  | [], k, v => [(k, v)]
  | (k0, v0) :: rest, k, v =>
      if k0 = k then (k, v) :: rest else (k0, v0) :: wsInsert rest k v

/-- The directory `allVersionizedValues`: map from non-nil tid to workspace. -/
abbrev Dir := List (Nat × WS)

/-- Go map lookup on the workspace directory. -/
def dirFind : Dir → Nat → Option WS
  | [], _ => none
  | (t0, w0) :: rest, t => if t0 = t then some w0 else dirFind rest t

/-- Go map overwrite on the workspace directory. -/
def dirInsert : Dir → Nat → WS → Dir
  | [], t, w => [(t, w)]
  | (t0, w0) :: rest, t, w =>
      if t0 = t then (t, w) :: rest else (t0, w0) :: dirInsert rest t w

/-- Go `delete` on the workspace directory. -/
def dirDelete (d : Dir) (t : Nat) : Dir :=
  d.filter (fun tw => tw.1 ≠ t)

/-- `StagingTable`: the backing store, the per-tid workspaces, and the final
workspace (mutexes of the source carry no sequential content). -/
structure StagingTable where
  storage : Key → StoreResult
  allVersionizedValues : Dir
  finalVersionizedValue : WS

/-- `NewStagingTable`. -/
def NewStagingTable (storage : Key → StoreResult) : StagingTable :=
  { storage := storage, allVersionizedValues := [], finalVersionizedValue := [] }

/-- `NewDefaultVersionizedValueItem`: old/new version 0, not deleted, not dirty. -/
def NewDefaultVersionizedValueItem (key : Key) (val : Val) : VersionizedValueItem :=
  { tid := none, key := key, val := val, old := 0, new := 0,
    deleted := false, dirty := false }

/-- `IncrVersionizedValueItem`: copy with version increased, dirty cleared. -/
def IncrVersionizedValueItem (tid : Tid) (oldValue : VersionizedValueItem) :
    VersionizedValueItem :=
  { tid := tid, key := oldValue.key, val := oldValue.val, old := oldValue.new,
    new := oldValue.new + 1, deleted := oldValue.deleted, dirty := false }

/-- `CloneForFinal`: shadow copy with `dirty` forced to `true`. -/
def VersionizedValueItem.CloneForFinal (value : VersionizedValueItem) :
    VersionizedValueItem :=
  { tid := value.tid, key := value.key, val := value.val, old := value.old,
    new := value.new, deleted := value.deleted, dirty := true }

/-- `isDefault`: nil owner and both versions 0. -/
def VersionizedValueItem.isDefault (value : VersionizedValueItem) : Bool :=
  value.tid = none && value.new = 0 && value.old = 0

/-- `getVersionizedValuesOfTid`: the workspace of `tid` (the final workspace
when `tid` is nil), created empty in the directory on first access.  Returns
the workspace together with the table after the possible creation. -/
def getVersionizedValuesOfTid (tbl : StagingTable) (tid : Tid) : WS × StagingTable :=
  match tid with
  | none => (tbl.finalVersionizedValue, tbl)
  | some t =>
    match dirFind tbl.allVersionizedValues t with
    | some tidValues => (tidValues, tbl)
    | none =>
      ([], { tbl with allVersionizedValues := dirInsert tbl.allVersionizedValues t [] })

/-- Write an entry into `tid`'s workspace (the Go `tidValues[keyStr] = value`,
where `tidValues` aliases the final workspace when `tid` is nil). -/
def setTidEntry (tbl : StagingTable) (tid : Tid) (key : Key)
    (value : VersionizedValueItem) : StagingTable :=
  match tid with
  | none =>
    { tbl with finalVersionizedValue := wsInsert tbl.finalVersionizedValue key value }
  | some t =>
    let ws := (dirFind tbl.allVersionizedValues t).getD []
    { tbl with allVersionizedValues :=
        dirInsert tbl.allVersionizedValues t (wsInsert ws key value) }

/-- `getAndIncrValueFromFinalVersionValue`: read the final entry for `key`,
populating it from the backing store (a not-found read yields a default entry
with an empty value) when absent, and return its version-increased copy.
A store error other than not-found is returned and nothing is installed. -/
def getAndIncrValueFromFinalVersionValue (tbl : StagingTable) (tid : Tid)
    (key : Key) : Except Nat VersionizedValueItem × StagingTable :=
  match wsFind tbl.finalVersionizedValue key with
  | some latestValue => (Except.ok (IncrVersionizedValueItem tid latestValue), tbl)
  | none =>
    match tbl.storage key with
    | StoreResult.err e => (Except.error e, tbl)
    | StoreResult.found val =>
      let latestValue := NewDefaultVersionizedValueItem key val
      (Except.ok (IncrVersionizedValueItem tid latestValue),
       { tbl with finalVersionizedValue :=
           wsInsert tbl.finalVersionizedValue key latestValue })
    | StoreResult.notFound =>
      let latestValue := NewDefaultVersionizedValueItem key []
      (Except.ok (IncrVersionizedValueItem tid latestValue),
       { tbl with finalVersionizedValue :=
           wsInsert tbl.finalVersionizedValue key latestValue })

/-- `getVersionizedValueForUpdate`: the shared get-or-derive step of
Get/Put/Set/Del. -/
def getVersionizedValueForUpdate (tbl : StagingTable) (tid : Tid) (key : Key) :
    Except Nat VersionizedValueItem × StagingTable :=
  let p := getVersionizedValuesOfTid tbl tid
  match wsFind p.1 key with
  | some value => (Except.ok value, p.2)
  | none =>
    let q := getAndIncrValueFromFinalVersionValue p.2 tid key
    match q.1 with
    | Except.error e => (Except.error e, q.2)
    | Except.ok value => (Except.ok value, setTidEntry q.2 tid key value)

/-- `Get`. -/
def StagingTable.Get (tbl : StagingTable) (tid : Tid) (key : Key) :
    Except Nat VersionizedValueItem × StagingTable :=
  getVersionizedValueForUpdate tbl tid key

/-- `Put`: dirty becomes `dirty || (stored value differs from the new one)`,
then the value is overwritten. -/
def StagingTable.Put (tbl : StagingTable) (tid : Tid) (key : Key) (val : Val) :
    Except Nat VersionizedValueItem × StagingTable :=
  let p := getVersionizedValueForUpdate tbl tid key
  match p.1 with
  | Except.error e => (Except.error e, p.2)
  | Except.ok value =>
    let value1 := { value with dirty := value.dirty || value.val != val }
    let value2 := { value1 with val := val }
    (Except.ok value2, setTidEntry p.2 tid key value2)

/-- `Set`: value, deleted and dirty are overwritten unconditionally. -/
def StagingTable.Set (tbl : StagingTable) (tid : Tid) (key : Key) (val : Val)
    (deleted dirty : Bool) : Except Nat VersionizedValueItem × StagingTable :=
  let p := getVersionizedValueForUpdate tbl tid key
  match p.1 with
  | Except.error e => (Except.error e, p.2)
  | Except.ok value =>
    let value2 := { value with val := val, deleted := deleted, dirty := dirty }
    (Except.ok value2, setTidEntry p.2 tid key value2)

/-- `Del`: deleted and dirty are set unconditionally. -/
def StagingTable.Del (tbl : StagingTable) (tid : Tid) (key : Key) :
    Except Nat VersionizedValueItem × StagingTable :=
  let p := getVersionizedValueForUpdate tbl tid key
  match p.1 with
  | Except.error e => (Except.error e, p.2)
  | Except.ok value =>
    let value2 := { value with deleted := true, dirty := true }
    (Except.ok value2, setTidEntry p.2 tid key value2)

/-- `Purge`: discard the workspace of `tid`; no-op for the nil sentinel. -/
def StagingTable.Purge (tbl : StagingTable) (tid : Tid) : StagingTable :=
  match tid with
  | none => tbl
  | some t => { tbl with allVersionizedValues := dirDelete tbl.allVersionizedValues t }

/-- Outcome of `MergeToFinal`: the dependent tids on success, the confliction
error, or the nil-pointer dereference the source performs when a key of the
transaction's workspace has no final entry. -/
inductive MergeResult where
  | ok : List Tid → MergeResult
  | conflictErr : MergeResult
  | nilDeref : MergeResult
deriving Repr, DecidableEq

/-- Record a dependent tid (Go set insertion `dependentTids[tid] = true`). -/
def insertTid (l : List Tid) (t : Tid) : List Tid :=
  if t ∈ l then l else t :: l

/-- The check loop of `MergeToFinal` (step 1 of the source): for each entry of
the transaction's workspace, look up the final entry, record a conflict when
`old ≠ final.new`, otherwise record the final owner as a dependent tid unless
the final entry is a default one.  `none` models the nil dereference on a
missing final entry. -/
def mergeCheck (finalValues : WS) : WS → Option (List (Key × Tid) × List Tid)
  | [] => some ([], [])
  | (keyStr, tidValueItem) :: rest =>
    match wsFind finalValues keyStr with
    | none => none
    | some finalValueItem =>
      match mergeCheck finalValues rest with
      | none => none
      | some (conflictKeys, dependentTids) =>
        if tidValueItem.old ≠ finalValueItem.new then
          some ((keyStr, finalValueItem.tid) :: conflictKeys, dependentTids)
        else if finalValueItem.isDefault then
          some (conflictKeys, dependentTids)
        else
          some (conflictKeys, insertTid dependentTids finalValueItem.tid)

/-- The merge loop of `MergeToFinal` (step 2 of the source): each dirty entry
of the transaction's workspace is published into the final workspace as its
`CloneForFinal`. -/
def mergeApply (finalValues : WS) : WS → WS
  | [] => finalValues
  | (keyStr, tidValueItem) :: rest =>
    mergeApply
      (if tidValueItem.dirty then
        wsInsert finalValues keyStr tidValueItem.CloneForFinal
       else finalValues) rest

/-- `MergeToFinal`. -/
def mergeToFinal (tbl : StagingTable) (tid : Tid) : MergeResult × StagingTable :=
  let p := getVersionizedValuesOfTid tbl tid
  let tidValues := p.1
  let tbl1 := p.2
  match mergeCheck tbl1.finalVersionizedValue tidValues with
  | none => (MergeResult.nilDeref, tbl1)
  | some (conflictKeys, dependentTids) =>
    if conflictKeys = [] then
      (MergeResult.ok dependentTids,
       { tbl1 with finalVersionizedValue :=
           mergeApply tbl1.finalVersionizedValue tidValues })
    else
      (MergeResult.conflictErr, tbl1)

/-- One public operation on a staging table. -/
inductive Op where
  | get : Tid → Key → Op
  | put : Tid → Key → Val → Op
  | set : Tid → Key → Val → Bool → Bool → Op
  | del : Tid → Key → Op
  | purge : Tid → Op
  | merge : Tid → Op
deriving Repr, DecidableEq

/-- The state after one operation (results returned to the caller dropped). -/
def applyOp (tbl : StagingTable) : Op → StagingTable
  | Op.get tid key => (tbl.Get tid key).2
  | Op.put tid key val => (tbl.Put tid key val).2
  | Op.set tid key val deleted dirty => (tbl.Set tid key val deleted dirty).2
  | Op.del tid key => (tbl.Del tid key).2
  | Op.purge tid => tbl.Purge tid
  | Op.merge tid => (mergeToFinal tbl tid).2

/-- The state after a sequence of operations on a fresh table. -/
def run (storage : Key → StoreResult) (ops : List Op) : StagingTable :=
  ops.foldl applyOp (NewStagingTable storage)

/-- The `new` version carried by an optional entry (0 when absent). -/
def optNew (o : Option VersionizedValueItem) : Nat :=
  match o with
  | some v => v.new
  | none => 0

/-- The final workspace's `new` version of a key, 0 when the key is absent. -/
def finalNewVersion (tbl : StagingTable) (k : Key) : Nat :=
  optNew (wsFind tbl.finalVersionizedValue k)

/-- The value the backing store supplies for a lazily loaded key (empty on
not-found, matching the nil slice the source passes on). -/
def storedVal (tbl : StagingTable) (k : Key) : Val :=
  match tbl.storage k with
  | StoreResult.found v => v
  | _ => []

/-- The default entry installed in the final workspace by a lazy load. -/
def loadedDefault (tbl : StagingTable) (k : Key) : VersionizedValueItem :=
  NewDefaultVersionizedValueItem k (storedVal tbl k)

/-- The entry a first touch of a key derives from: the current final entry,
or the default entry built from the backing store when the key has no final
entry yet. -/
def derivedBase (tbl : StagingTable) (k : Key) : VersionizedValueItem :=
  match wsFind tbl.finalVersionizedValue k with
  | some v => v
  | none => loadedDefault tbl k

/-- The workspace of `tid` as seen at the start of an operation. -/
def tidWorkspace (tbl : StagingTable) (tid : Tid) : WS :=
  (getVersionizedValuesOfTid tbl tid).1

/-- Version shape of entries reachable in the final workspace: derived
(`new = old + 1`) or default (`0 / 0`). -/
def versionOk (v : VersionizedValueItem) : Bool :=
  v.new == v.old + 1 || (v.old == 0 && v.new == 0)

/-- No key bound twice in a workspace. -/
def keysNodup : WS → Bool
  | [] => true
  | (k, _) :: rest => (wsFind rest k).isNone && keysNodup rest

/-- Every key of `ws` has an entry in `finalValues`. -/
def wsCovered (finalValues : WS) (ws : WS) : Bool :=
  ws.all (fun kv => (wsFind finalValues kv.1).isSome)

/-- Every entry of a per-transaction workspace is a derived one. -/
def wsDerived (ws : WS) : Bool :=
  ws.all (fun kv => kv.2.new == kv.2.old + 1)

/-- Invariant of reachable staging tables. -/
def invariant (tbl : StagingTable) : Bool :=
  tbl.finalVersionizedValue.all (fun kv => versionOk kv.2) &&
  keysNodup tbl.finalVersionizedValue &&
  tbl.allVersionizedValues.all (fun tw =>
    wsCovered tbl.finalVersionizedValue tw.2 && wsDerived tw.2 && keysNodup tw.2)

/-- Does `op` address key `k` through one of the four access operations with
the nil transaction identifier? -/
def Op.noneAccessOn (op : Op) (k : Key) : Bool :=
  match op with
  | Op.get tid key => tid = none && key = k
  | Op.put tid key _ => tid = none && key = k
  | Op.set tid key _ _ _ => tid = none && key = k
  | Op.del tid key => tid = none && key = k
  | _ => false

/-- The state change common to Put/Set/Del: get-or-derive the entry, mutate
it with `m`, and store it back into the transaction's workspace. -/
def mutateStep (tbl : StagingTable) (tid : Tid) (key : Key)
    (m : VersionizedValueItem → VersionizedValueItem) : StagingTable :=
  let p := getVersionizedValueForUpdate tbl tid key
  match p.1 with
  | Except.error _ => p.2
  | Except.ok value => setTidEntry p.2 tid key (m value)

/-! ### Concrete tables used to instantiate the theorems on explicit inputs -/

/-- A final entry at version 1 owned by no transaction. -/
def e0w : VersionizedValueItem :=
  { tid := none, key := [0], val := [], old := 0, new := 1, deleted := false, dirty := true }

/-- A stale workspace entry of transaction 1 (old version 5). -/
def e1w : VersionizedValueItem :=
  { tid := some 1, key := [0], val := [], old := 5, new := 6, deleted := false, dirty := true }

/-- A table on which transaction 1 conflicts on key `[0]`. -/
def wtbl1 : StagingTable :=
  { storage := fun _ => StoreResult.notFound,
    allVersionizedValues := [(1, [([0], e1w)])],
    finalVersionizedValue := [([0], e0w)] }

/-- A final entry owned by transaction 2. -/
def f0w : VersionizedValueItem :=
  { tid := some 2, key := [0], val := [3], old := 0, new := 1, deleted := false, dirty := true }

/-- A dirty workspace entry of transaction 1 based on `f0w`. -/
def d1w : VersionizedValueItem :=
  { tid := some 1, key := [0], val := [9], old := 1, new := 2, deleted := false, dirty := true }

/-- A default final entry. -/
def f1w : VersionizedValueItem :=
  { tid := none, key := [1], val := [], old := 0, new := 0, deleted := false, dirty := false }

/-- A clean workspace entry of transaction 1 based on `f1w`. -/
def d2w : VersionizedValueItem :=
  { tid := some 1, key := [1], val := [], old := 0, new := 1, deleted := false, dirty := false }

/-- A table on which transaction 1 merges successfully. -/
def wtbl2 : StagingTable :=
  { storage := fun _ => StoreResult.notFound,
    allVersionizedValues := [(1, [([0], d1w), ([1], d2w)])],
    finalVersionizedValue := [([0], f0w), ([1], f1w)] }

/-- A table identical in content to `wtbl2`, for the dependent-tid claim. -/
def wtbl8 : StagingTable :=
  { storage := fun _ => StoreResult.notFound,
    allVersionizedValues := [(1, [([0], d1w), ([1], d2w)])],
    finalVersionizedValue := [([0], f0w), ([1], f1w)] }

/-- A table whose final workspace already holds key `[0]` at version 1. -/
def wtbl4 : StagingTable :=
  { storage := fun _ => StoreResult.notFound,
    allVersionizedValues := [],
    finalVersionizedValue :=
      [([0], { tid := none, key := [0], val := [5], old := 0, new := 1, deleted := false, dirty := true })] }

/-- A fresh table over a store holding `[9]` at every key. -/
def wtbl5 : StagingTable := NewStagingTable (fun _ => StoreResult.found [9])

/-- The entry `Get` derives for transaction 1 on `wtbl5`. -/
def eC5 : VersionizedValueItem :=
  { tid := some 1, key := [0], val := [9], old := 0, new := 1, deleted := false, dirty := false }

/-- A fresh table over an empty store. -/
def wtbl6 : StagingTable := NewStagingTable (fun _ => StoreResult.notFound)

/-- The entry `Put` operates on for transaction 1 on `wtbl6`. -/
def eC6 : VersionizedValueItem :=
  { tid := some 1, key := [0], val := [], old := 0, new := 1, deleted := false, dirty := false }

/-- A final entry for the purge claim. -/
def fw7 : VersionizedValueItem :=
  { tid := none, key := [0], val := [4], old := 0, new := 1, deleted := false, dirty := true }

/-- A workspace entry of transaction 1 for the purge claim. -/
def ew7 : VersionizedValueItem :=
  { tid := some 1, key := [0], val := [9], old := 1, new := 2, deleted := false, dirty := true }

/-- A table on which transaction 1 has touched key `[0]`. -/
def wtbl7 : StagingTable :=
  { storage := fun _ => StoreResult.notFound,
    allVersionizedValues := [(1, [([0], ew7)])],
    finalVersionizedValue := [([0], fw7)] }

/-- The entry `Get` re-derives after the purge on `wtbl7`. -/
def eC7 : VersionizedValueItem :=
  { tid := some 1, key := [0], val := [4], old := 1, new := 2, deleted := false, dirty := false }

/-- A fresh table over a store that fails on key `[0]` with error 42. -/
def wtbl9 : StagingTable :=
  NewStagingTable (fun k => if k = [0] then StoreResult.err 42 else StoreResult.notFound)

/-! ### Basic lemmas about the map embeddings -/

theorem wsFind_wsInsert (ws : WS) (k : Key) (v : VersionizedValueItem) (k' : Key) :
    wsFind (wsInsert ws k v) k' = if k = k' then some v else wsFind ws k' := by
  induction ws with
  | nil => simp [wsInsert, wsFind, eq_comm]
  | cons kv rest ih =>
    obtain ⟨k0, v0⟩ := kv
    by_cases h0 : k0 = k
    · subst h0
      by_cases h1 : k0 = k'
      · subst h1; simp [wsInsert, wsFind]
      · simp [wsInsert, wsFind, h1, Ne.symm h1]
    · by_cases h1 : k0 = k'
      · subst h1
        have : ¬ k = k0 := fun h => h0 h.symm
        simp [wsInsert, wsFind, h0, this]
      · simp [wsInsert, wsFind, h0, h1, ih]

theorem wsFind_wsInsert_self (ws : WS) (k : Key) (v : VersionizedValueItem) :
    wsFind (wsInsert ws k v) k = some v := by
  simp [wsFind_wsInsert]

theorem wsFind_wsInsert_ne (ws : WS) (k : Key) (v : VersionizedValueItem)
    (k' : Key) (h : k ≠ k') : wsFind (wsInsert ws k v) k' = wsFind ws k' := by
  simp [wsFind_wsInsert, h]

theorem wsFind_isSome_wsInsert (ws : WS) (k : Key) (v : VersionizedValueItem)
    (k' : Key) (h : (wsFind ws k').isSome) :
    (wsFind (wsInsert ws k v) k').isSome := by
  rw [wsFind_wsInsert]
  by_cases hk : k = k' <;> simp [hk, h]

theorem wsFind_mem {ws : WS} {k : Key} {v : VersionizedValueItem}
    (h : wsFind ws k = some v) : (k, v) ∈ ws := by
  induction ws with
  | nil => simp [wsFind] at h
  | cons kv rest ih =>
    obtain ⟨k0, v0⟩ := kv
    by_cases h0 : k0 = k
    · subst h0
      simp [wsFind] at h
      simp [h]
    · simp [wsFind, h0] at h
      exact List.mem_cons_of_mem _ (ih h)

theorem mem_wsFind_isSome {ws : WS} {kv : Key × VersionizedValueItem}
    (h : kv ∈ ws) : (wsFind ws kv.1).isSome := by
  induction ws with
  | nil => simp at h
  | cons kv0 rest ih =>
    obtain ⟨k0, v0⟩ := kv0
    rcases List.mem_cons.1 h with h1 | h1
    · subst h1; simp [wsFind]
    · by_cases h0 : k0 = kv.1 <;> simp [wsFind, h0, ih h1]

theorem wsFind_eq_none_not_mem {ws : WS} {k : Key}
    (h : wsFind ws k = none) {v : VersionizedValueItem} : (k, v) ∉ ws := by
  intro hmem
  have := mem_wsFind_isSome hmem
  simp [h] at this

theorem keysNodup_wsInsert (ws : WS) (k : Key) (v : VersionizedValueItem)
    (h : keysNodup ws = true) : keysNodup (wsInsert ws k v) = true := by
  induction ws with
  | nil => simp [wsInsert, keysNodup, wsFind]
  | cons kv rest ih =>
    obtain ⟨k0, v0⟩ := kv
    simp [keysNodup] at h
    by_cases h0 : k0 = k
    · subst h0
      simp [wsInsert, keysNodup, h.1, h.2]
    · have hne : k ≠ k0 := fun hx => h0 hx.symm
      simp [wsInsert, keysNodup, h0, ih h.2, wsFind_wsInsert, hne, h.1]

theorem wsAll_wsInsert (ws : WS) (k : Key) (v : VersionizedValueItem)
    (p : Key × VersionizedValueItem → Bool)
    (hall : ws.all p = true) (hv : p (k, v) = true) :
    (wsInsert ws k v).all p = true := by
  induction ws with
  | nil => simp [wsInsert, hv]
  | cons kv rest ih =>
    obtain ⟨k0, v0⟩ := kv
    rw [List.all_cons, Bool.and_eq_true] at hall
    by_cases h0 : k0 = k
    · subst h0
      have he : wsInsert ((k0, v0) :: rest) k0 v = (k0, v) :: rest := by
        simp [wsInsert]
      rw [he, List.all_cons, Bool.and_eq_true]
      exact ⟨hv, hall.2⟩
    · have he : wsInsert ((k0, v0) :: rest) k v = (k0, v0) :: wsInsert rest k v := by
        simp [wsInsert, h0]
      rw [he, List.all_cons, Bool.and_eq_true]
      exact ⟨hall.1, ih hall.2⟩

theorem dirFind_dirInsert (d : Dir) (t : Nat) (w : WS) (t' : Nat) :
    dirFind (dirInsert d t w) t' = if t = t' then some w else dirFind d t' := by
  induction d with
  | nil => simp [dirInsert, dirFind, eq_comm]
  | cons tw rest ih =>
    obtain ⟨t0, w0⟩ := tw
    by_cases h0 : t0 = t
    · subst h0
      by_cases h1 : t0 = t'
      · subst h1; simp [dirInsert, dirFind]
      · simp [dirInsert, dirFind, h1, Ne.symm h1]
    · by_cases h1 : t0 = t'
      · subst h1
        have : ¬ t = t0 := fun h => h0 h.symm
        simp [dirInsert, dirFind, h0, this]
      · simp [dirInsert, dirFind, h0, h1, ih]

theorem dirDelete_cons_self (t0 : Nat) (w0 : WS) (rest : Dir) :
    dirDelete ((t0, w0) :: rest) t0 = dirDelete rest t0 := by
  simp [dirDelete]

theorem dirDelete_cons_ne (t0 : Nat) (w0 : WS) (rest : Dir) (t : Nat)
    (h : t0 ≠ t) : dirDelete ((t0, w0) :: rest) t = (t0, w0) :: dirDelete rest t := by
  simp [dirDelete, h]

theorem dirFind_dirDelete (d : Dir) (t : Nat) (t' : Nat) :
    dirFind (dirDelete d t) t' = if t = t' then none else dirFind d t' := by
  induction d with
  | nil => simp [dirDelete, dirFind]
  | cons tw rest ih =>
    obtain ⟨t0, w0⟩ := tw
    by_cases h0 : t0 = t
    · subst h0
      rw [dirDelete_cons_self, ih]
      by_cases h1 : t0 = t'
      · simp [h1]
      · simp [h1, dirFind]
    · rw [dirDelete_cons_ne _ _ _ _ h0]
      by_cases h1 : t0 = t'
      · subst h1
        have hne : ¬ t = t0 := fun h => h0 h.symm
        simp [dirFind, hne]
      · simp [dirFind, h1, ih]

theorem dirFind_mem {d : Dir} {t : Nat} {w : WS} (h : dirFind d t = some w) :
    (t, w) ∈ d := by
  induction d with
  | nil => simp [dirFind] at h
  | cons tw rest ih =>
    obtain ⟨t0, w0⟩ := tw
    by_cases h0 : t0 = t
    · subst h0
      simp [dirFind] at h
      simp [h]
    · simp [dirFind, h0] at h
      exact List.mem_cons_of_mem _ (ih h)

theorem dirAll_dirInsert (d : Dir) (t : Nat) (w : WS) (p : Nat × WS → Bool)
    (hall : d.all p = true) (hw : p (t, w) = true) :
    (dirInsert d t w).all p = true := by
  induction d with
  | nil => simp [dirInsert, hw]
  | cons tw rest ih =>
    obtain ⟨t0, w0⟩ := tw
    rw [List.all_cons, Bool.and_eq_true] at hall
    by_cases h0 : t0 = t
    · subst h0
      have he : dirInsert ((t0, w0) :: rest) t0 w = (t0, w) :: rest := by
        simp [dirInsert]
      rw [he, List.all_cons, Bool.and_eq_true]
      exact ⟨hw, hall.2⟩
    · have he : dirInsert ((t0, w0) :: rest) t w = (t0, w0) :: dirInsert rest t w := by
        simp [dirInsert, h0]
      rw [he, List.all_cons, Bool.and_eq_true]
      exact ⟨hall.1, ih hall.2⟩

theorem dirAll_dirDelete (d : Dir) (t : Nat) (p : Nat × WS → Bool)
    (hall : d.all p = true) : (dirDelete d t).all p = true := by
  simp only [List.all_eq_true] at hall ⊢
  intro x hx
  exact hall x (List.mem_of_mem_filter hx)

/-! ### Lemmas about the two loops of `MergeToFinal` -/

theorem mem_insertTid (l : List Tid) (t t' : Tid) :
    t ∈ insertTid l t' ↔ t = t' ∨ t ∈ l := by
  by_cases h : t' ∈ l
  · simp only [insertTid, if_pos h]
    constructor
    · exact Or.inr
    · rintro (rfl | hm)
      · exact h
      · exact hm
  · simp only [insertTid, if_neg h, List.mem_cons]

theorem nodup_insertTid (l : List Tid) (t : Tid) (h : l.Nodup) :
    (insertTid l t).Nodup := by
  by_cases hm : t ∈ l
  · simpa only [insertTid, if_pos hm] using h
  · simpa only [insertTid, if_neg hm, List.nodup_cons] using ⟨hm, h⟩

theorem mergeApply_wsFind_not_mem (f : WS) (l : WS) (k : Key)
    (h : wsFind l k = none) : wsFind (mergeApply f l) k = wsFind f k := by
  induction l generalizing f with
  | nil => simp [mergeApply]
  | cons kv rest ih =>
    obtain ⟨k0, v0⟩ := kv
    have h0 : k0 ≠ k := by
      intro he
      simp [wsFind, he] at h
    have hr : wsFind rest k = none := by
      simpa [wsFind, h0] using h
    simp only [mergeApply]
    rw [ih _ hr]
    by_cases hd : v0.dirty <;> simp [hd, wsFind_wsInsert_ne _ _ _ _ h0]

theorem mergeApply_wsFind_mem (f : WS) (l : WS) (k : Key)
    (v : VersionizedValueItem) (hnd : keysNodup l = true)
    (h : wsFind l k = some v) :
    wsFind (mergeApply f l) k =
      if v.dirty then some v.CloneForFinal else wsFind f k := by
  induction l generalizing f with
  | nil => simp [wsFind] at h
  | cons kv rest ih =>
    obtain ⟨k0, v0⟩ := kv
    rw [keysNodup, Bool.and_eq_true] at hnd
    by_cases h0 : k0 = k
    · subst h0
      rw [wsFind, if_pos rfl] at h
      have hv0 : v0 = v := by simpa using h
      rw [← hv0]
      have hrest : wsFind rest k0 = none := by
        simpa [Option.isNone_iff_eq_none] using hnd.1
      simp only [mergeApply]
      rw [mergeApply_wsFind_not_mem _ _ _ hrest]
      by_cases hd : v0.dirty <;> simp [hd, wsFind_wsInsert_self]
    · have hr : wsFind rest k = some v := by
        simpa [wsFind, h0] using h
      simp only [mergeApply]
      rw [ih _ hnd.2 hr]
      by_cases hd : v.dirty
      · simp [hd]
      · by_cases hd0 : v0.dirty <;>
          simp [hd, hd0, wsFind_wsInsert_ne _ _ _ _ h0]

theorem mergeApply_isSome (f : WS) (l : WS) (k : Key)
    (h : (wsFind f k).isSome) : (wsFind (mergeApply f l) k).isSome := by
  induction l generalizing f with
  | nil => simpa [mergeApply] using h
  | cons kv rest ih =>
    obtain ⟨k0, v0⟩ := kv
    simp only [mergeApply]
    by_cases hd : v0.dirty
    · exact ih _ (by simpa [hd] using wsFind_isSome_wsInsert f k0 v0.CloneForFinal k h)
    · simpa [hd] using ih _ h

theorem mergeApply_all (f : WS) (l : WS) (q : Key × VersionizedValueItem → Bool)
    (hf : f.all q = true)
    (hl : ∀ kv ∈ l, q (kv.1, kv.2.CloneForFinal) = true) :
    (mergeApply f l).all q = true := by
  induction l generalizing f with
  | nil => simpa [mergeApply] using hf
  | cons kv rest ih =>
    obtain ⟨k0, v0⟩ := kv
    simp only [mergeApply]
    by_cases hd : v0.dirty
    · simp only [hd, if_pos]
      refine ih _ (wsAll_wsInsert _ _ _ _ hf ?_) (fun kv hm => hl kv (List.mem_cons_of_mem _ hm))
      exact hl (k0, v0) (List.mem_cons_self _ _)
    · simp only [hd]
      exact ih _ (by simpa using hf) (fun kv hm => hl kv (List.mem_cons_of_mem _ hm))

theorem mergeApply_keysNodup (f : WS) (l : WS) (h : keysNodup f = true) :
    keysNodup (mergeApply f l) = true := by
  induction l generalizing f with
  | nil => simpa [mergeApply] using h
  | cons kv rest ih =>
    obtain ⟨k0, v0⟩ := kv
    simp only [mergeApply]
    by_cases hd : v0.dirty
    · exact ih _ (by simpa [hd] using keysNodup_wsInsert f k0 v0.CloneForFinal h)
    · simpa [hd] using ih _ h

theorem mergeCheck_none_iff (fv : WS) (l : WS) :
    mergeCheck fv l = none ↔ ∃ kv ∈ l, wsFind fv kv.1 = none := by
  induction l with
  | nil => simp [mergeCheck]
  | cons kv rest ih =>
    obtain ⟨k0, v0⟩ := kv
    constructor
    · intro h
      rw [mergeCheck] at h
      cases hf : wsFind fv k0 with
      | none => exact ⟨(k0, v0), List.mem_cons_self _ _, hf⟩
      | some f0 =>
        rw [hf] at h
        cases hr : mergeCheck fv rest with
        | none =>
          obtain ⟨kv, hm, hk⟩ := ih.1 hr
          exact ⟨kv, List.mem_cons_of_mem _ hm, hk⟩
        | some cd =>
          obtain ⟨cs, ds⟩ := cd
          rw [hr] at h
          by_cases hc : v0.old ≠ f0.new
          · simp [hc] at h
          · by_cases hdef : f0.isDefault <;> simp [hc, hdef] at h
    · rintro ⟨kv, hm, hk⟩
      rcases List.mem_cons.1 hm with h1 | h1
      · rw [mergeCheck]
        obtain rfl : kv = (k0, v0) := h1
        rw [hk]
      · rw [mergeCheck]
        cases hf : wsFind fv k0 with
        | none => rfl
        | some f0 =>
          have hr : mergeCheck fv rest = none := ih.2 ⟨kv, h1, hk⟩
          rw [hr]

theorem mergeCheck_isSome_of_covered (fv : WS) (l : WS)
    (h : wsCovered fv l = true) : mergeCheck fv l ≠ none := by
  rw [Ne, mergeCheck_none_iff]
  rintro ⟨kv, hm, hk⟩
  rw [wsCovered, List.all_eq_true] at h
  have := h kv hm
  simp [hk] at this

theorem mergeCheck_conflicts (fv : WS) (l : WS) (cs : List (Key × Tid))
    (ds : List Tid) (h : mergeCheck fv l = some (cs, ds)) :
    cs = [] ↔ ∀ kv ∈ l, ∀ f, wsFind fv kv.1 = some f → kv.2.old = f.new := by
  induction l generalizing cs ds with
  | nil =>
    rw [mergeCheck] at h
    obtain ⟨rfl, rfl⟩ : cs = [] ∧ ds = [] := by simpa using h.symm
    simp
  | cons kv rest ih =>
    obtain ⟨k0, v0⟩ := kv
    cases hf : wsFind fv k0 with
    | none =>
      simp only [mergeCheck, hf] at h
      exact Option.noConfusion h
    | some f0 =>
      cases hr : mergeCheck fv rest with
      | none =>
        simp only [mergeCheck, hf, hr] at h
        exact Option.noConfusion h
      | some cd =>
        obtain ⟨cs', ds'⟩ := cd
        simp only [mergeCheck, hf, hr] at h
        split_ifs at h with hc hdef
        · obtain ⟨rfl, rfl⟩ : (k0, f0.tid) :: cs' = cs ∧ ds' = ds := by
            simpa using h
          constructor
          · intro he; exact absurd he (by simp)
          · intro hall
            exact absurd (hall (k0, v0) (List.mem_cons_self _ _) f0 hf) hc
        · push_neg at hc
          obtain ⟨rfl, rfl⟩ : cs' = cs ∧ ds' = ds := by simpa using h
          rw [ih _ _ hr]
          constructor
          · intro hall kv hm f hfind
            rcases List.mem_cons.1 hm with h1 | h1
            · obtain rfl : kv = (k0, v0) := h1
              have : f = f0 := by rw [hfind] at hf; simpa using hf
              rw [this]; exact hc
            · exact hall kv h1 f hfind
          · intro hall kv hm f hfind
            exact hall kv (List.mem_cons_of_mem _ hm) f hfind
        · push_neg at hc
          obtain ⟨rfl, rfl⟩ : cs' = cs ∧ insertTid ds' f0.tid = ds := by
            simpa using h
          rw [ih _ _ hr]
          constructor
          · intro hall kv hm f hfind
            rcases List.mem_cons.1 hm with h1 | h1
            · obtain rfl : kv = (k0, v0) := h1
              have : f = f0 := by rw [hfind] at hf; simpa using hf
              rw [this]; exact hc
            · exact hall kv h1 f hfind
          · intro hall kv hm f hfind
            exact hall kv (List.mem_cons_of_mem _ hm) f hfind

theorem mergeCheck_deps (fv : WS) (l : WS) (ds : List Tid)
    (h : mergeCheck fv l = some ([], ds)) :
    ds.Nodup ∧ ∀ t, (t ∈ ds ↔
      ∃ kv ∈ l, ∃ f, wsFind fv kv.1 = some f ∧ f.isDefault = false ∧ f.tid = t) := by
  induction l generalizing ds with
  | nil =>
    rw [mergeCheck] at h
    obtain rfl : ds = [] := by simpa using (congrArg (fun x => Option.map Prod.snd x) h).symm
    simp
  | cons kv rest ih =>
    obtain ⟨k0, v0⟩ := kv
    cases hf : wsFind fv k0 with
    | none =>
      simp only [mergeCheck, hf] at h
      exact Option.noConfusion h
    | some f0 =>
      cases hr : mergeCheck fv rest with
      | none =>
        simp only [mergeCheck, hf, hr] at h
        exact Option.noConfusion h
      | some cd =>
        obtain ⟨cs', ds'⟩ := cd
        simp only [mergeCheck, hf, hr] at h
        by_cases hc : v0.old ≠ f0.new
        · rw [if_pos hc] at h
          simp at h
        · rw [if_neg hc] at h
          by_cases hdef : f0.isDefault
          · rw [if_pos hdef] at h
            obtain ⟨rfl, rfl⟩ : cs' = [] ∧ ds' = ds := by simpa using h
            obtain ⟨hnd, hiff⟩ := ih _ hr
            refine ⟨hnd, fun t => ?_⟩
            rw [hiff t]
            constructor
            · rintro ⟨kv, hm, f, hfind, hf1, hf2⟩
              exact ⟨kv, List.mem_cons_of_mem _ hm, f, hfind, hf1, hf2⟩
            · rintro ⟨kv, hm, f, hfind, hf1, hf2⟩
              rcases List.mem_cons.1 hm with h1 | h1
              · obtain rfl : kv = (k0, v0) := h1
                have : f = f0 := by rw [hfind] at hf; simpa using hf
                rw [this] at hf1
                rw [hdef] at hf1
                exact absurd hf1 (by simp)
              · exact ⟨kv, h1, f, hfind, hf1, hf2⟩
          · rw [if_neg hdef] at h
            obtain ⟨rfl, rfl⟩ : cs' = [] ∧ insertTid ds' f0.tid = ds := by
              simpa using h
            obtain ⟨hnd, hiff⟩ := ih _ hr
            refine ⟨nodup_insertTid _ _ hnd, fun t => ?_⟩
            rw [mem_insertTid, hiff t]
            constructor
            · rintro (rfl | ⟨kv, hm, f, hfind, hf1, hf2⟩)
              · exact ⟨(k0, v0), List.mem_cons_self _ _, f0, hf,
                  by simpa using hdef, rfl⟩
              · exact ⟨kv, List.mem_cons_of_mem _ hm, f, hfind, hf1, hf2⟩
            · rintro ⟨kv, hm, f, hfind, hf1, hf2⟩
              rcases List.mem_cons.1 hm with h1 | h1
              · obtain rfl : kv = (k0, v0) := h1
                have : f = f0 := by rw [hfind] at hf; simpa using hf
                subst this
                exact Or.inl hf2.symm
              · exact Or.inr ⟨kv, h1, f, hfind, hf1, hf2⟩

theorem mergeCheck_covered (fv : WS) (l : WS) (cs : List (Key × Tid))
    (ds : List Tid) (h : mergeCheck fv l = some (cs, ds)) :
    ∀ kv ∈ l, (wsFind fv kv.1).isSome := by
  intro kv hm
  cases hk : wsFind fv kv.1 with
  | some f => simp
  | none =>
    have : mergeCheck fv l = none := (mergeCheck_none_iff fv l).2 ⟨kv, hm, hk⟩
    rw [this] at h
    exact absurd h (by simp)

/-! ### Lemmas about the invariant and the operation bodies -/

theorem invariant_parts {tbl : StagingTable} (h : invariant tbl = true) :
    tbl.finalVersionizedValue.all (fun kv => versionOk kv.2) = true ∧
    keysNodup tbl.finalVersionizedValue = true ∧
    tbl.allVersionizedValues.all (fun tw =>
      wsCovered tbl.finalVersionizedValue tw.2 && wsDerived tw.2 &&
        keysNodup tw.2) = true := by
  rw [invariant, Bool.and_eq_true, Bool.and_eq_true] at h
  exact ⟨h.1.1, h.1.2, h.2⟩

theorem invariant_intro {tbl : StagingTable}
    (h1 : tbl.finalVersionizedValue.all (fun kv => versionOk kv.2) = true)
    (h2 : keysNodup tbl.finalVersionizedValue = true)
    (h3 : tbl.allVersionizedValues.all (fun tw =>
      wsCovered tbl.finalVersionizedValue tw.2 && wsDerived tw.2 &&
        keysNodup tw.2) = true) : invariant tbl = true := by
  rw [invariant, Bool.and_eq_true, Bool.and_eq_true]
  exact ⟨⟨h1, h2⟩, h3⟩

theorem wsCovered_self (ws : WS) : wsCovered ws ws = true := by
  rw [wsCovered, List.all_eq_true]
  intro kv hm
  exact mem_wsFind_isSome hm

theorem wsCovered_mono {f f' : WS}
    (hmono : ∀ k, (wsFind f k).isSome = true → (wsFind f' k).isSome = true)
    (ws : WS) (h : wsCovered f ws = true) : wsCovered f' ws = true := by
  rw [wsCovered, List.all_eq_true] at h ⊢
  intro kv hm
  exact hmono _ (h kv hm)

theorem dirProps_mono {f f' : WS}
    (hmono : ∀ k, (wsFind f k).isSome = true → (wsFind f' k).isSome = true)
    (d : Dir)
    (h : d.all (fun tw => wsCovered f tw.2 && wsDerived tw.2 && keysNodup tw.2) = true) :
    d.all (fun tw => wsCovered f' tw.2 && wsDerived tw.2 && keysNodup tw.2) = true := by
  rw [List.all_eq_true] at h ⊢
  intro tw hm
  have h0 := h tw hm
  rw [Bool.and_eq_true, Bool.and_eq_true] at h0 ⊢
  exact ⟨⟨wsCovered_mono hmono _ h0.1.1, h0.1.2⟩, h0.2⟩

theorem gvvot_final (tbl : StagingTable) (tid : Tid) :
    ((getVersionizedValuesOfTid tbl tid).2).finalVersionizedValue =
      tbl.finalVersionizedValue := by
  cases tid with
  | none => rfl
  | some t =>
    simp only [getVersionizedValuesOfTid]
    cases dirFind tbl.allVersionizedValues t <;> rfl

theorem gvvot_finalNV (tbl : StagingTable) (tid : Tid) (k : Key) :
    finalNewVersion ((getVersionizedValuesOfTid tbl tid).2) k =
      finalNewVersion tbl k := by
  rw [finalNewVersion, finalNewVersion, gvvot_final]

theorem gvvot_inv {tbl : StagingTable} (h : invariant tbl = true) (tid : Tid) :
    invariant ((getVersionizedValuesOfTid tbl tid).2) = true := by
  cases tid with
  | none => exact h
  | some t =>
    simp only [getVersionizedValuesOfTid]
    cases hd : dirFind tbl.allVersionizedValues t with
    | some ws => exact h
    | none =>
      obtain ⟨h1, h2, h3⟩ := invariant_parts h
      refine invariant_intro h1 h2 ?_
      apply dirAll_dirInsert _ _ _ _ h3
      simp [wsCovered, wsDerived, keysNodup]

theorem gvvot_covered {tbl : StagingTable} (h : invariant tbl = true) (tid : Tid) :
    wsCovered tbl.finalVersionizedValue ((getVersionizedValuesOfTid tbl tid).1) = true := by
  cases tid with
  | none => exact wsCovered_self _
  | some t =>
    simp only [getVersionizedValuesOfTid]
    cases hd : dirFind tbl.allVersionizedValues t with
    | none => simp [wsCovered]
    | some ws =>
      have h3 := (invariant_parts h).2.2
      rw [List.all_eq_true] at h3
      have h0 := h3 (t, ws) (dirFind_mem hd)
      rw [Bool.and_eq_true, Bool.and_eq_true] at h0
      exact h0.1.1

theorem gvvot_nodup {tbl : StagingTable} (h : invariant tbl = true) (tid : Tid) :
    keysNodup ((getVersionizedValuesOfTid tbl tid).1) = true := by
  cases tid with
  | none => exact (invariant_parts h).2.1
  | some t =>
    simp only [getVersionizedValuesOfTid]
    cases hd : dirFind tbl.allVersionizedValues t with
    | none => simp [keysNodup]
    | some ws =>
      have h3 := (invariant_parts h).2.2
      rw [List.all_eq_true] at h3
      have h0 := h3 (t, ws) (dirFind_mem hd)
      rw [Bool.and_eq_true, Bool.and_eq_true] at h0
      exact h0.2

theorem gvvot_entry_versionOk {tbl : StagingTable} (h : invariant tbl = true)
    (tid : Tid) :
    ∀ kv ∈ (getVersionizedValuesOfTid tbl tid).1, versionOk kv.2 = true := by
  cases tid with
  | none =>
    intro kv hm
    have h1 := (invariant_parts h).1
    rw [List.all_eq_true] at h1
    exact h1 kv hm
  | some t =>
    intro kv hm
    revert hm
    simp only [getVersionizedValuesOfTid]
    cases hd : dirFind tbl.allVersionizedValues t with
    | none => intro hm; simp at hm
    | some ws =>
      intro hm
      have h3 := (invariant_parts h).2.2
      rw [List.all_eq_true] at h3
      have h0 := h3 (t, ws) (dirFind_mem hd)
      rw [Bool.and_eq_true, Bool.and_eq_true] at h0
      have hder := h0.1.2
      rw [wsDerived, List.all_eq_true] at hder
      have := hder kv hm
      rw [versionOk, Bool.or_eq_true]
      exact Or.inl this

theorem gvvot_derived {tbl : StagingTable} (h : invariant tbl = true) (t : Nat) :
    wsDerived ((getVersionizedValuesOfTid tbl (some t)).1) = true := by
  simp only [getVersionizedValuesOfTid]
  cases hd : dirFind tbl.allVersionizedValues t with
  | none => simp [wsDerived]
  | some ws =>
    have h3 := (invariant_parts h).2.2
    rw [List.all_eq_true] at h3
    have h0 := h3 (t, ws) (dirFind_mem hd)
    rw [Bool.and_eq_true, Bool.and_eq_true] at h0
    exact h0.1.2

theorem gai_found {tbl : StagingTable} {tid : Tid} {key : Key}
    {v : VersionizedValueItem} (hf : wsFind tbl.finalVersionizedValue key = some v) :
    getAndIncrValueFromFinalVersionValue tbl tid key =
      (Except.ok (IncrVersionizedValueItem tid v), tbl) := by
  simp [getAndIncrValueFromFinalVersionValue, hf]

theorem gai_err {tbl : StagingTable} {tid : Tid} {key : Key} {e : Nat}
    (hf : wsFind tbl.finalVersionizedValue key = none)
    (hs : tbl.storage key = StoreResult.err e) :
    getAndIncrValueFromFinalVersionValue tbl tid key = (Except.error e, tbl) := by
  simp [getAndIncrValueFromFinalVersionValue, hf, hs]

theorem gai_load {tbl : StagingTable} {tid : Tid} {key : Key}
    (hf : wsFind tbl.finalVersionizedValue key = none)
    (hs : ∀ e, tbl.storage key ≠ StoreResult.err e) :
    getAndIncrValueFromFinalVersionValue tbl tid key =
      (Except.ok (IncrVersionizedValueItem tid (loadedDefault tbl key)),
       { tbl with finalVersionizedValue := wsInsert tbl.finalVersionizedValue key (loadedDefault tbl key) }) := by
  cases hsv : tbl.storage key with
  | err e => exact absurd hsv (hs e)
  | found val => simp [getAndIncrValueFromFinalVersionValue, hf, hsv, loadedDefault, storedVal]
  | notFound => simp [getAndIncrValueFromFinalVersionValue, hf, hsv, loadedDefault, storedVal]

theorem gai_inv {tbl : StagingTable} (h : invariant tbl = true) (tid : Tid)
    (key : Key) :
    invariant ((getAndIncrValueFromFinalVersionValue tbl tid key).2) = true := by
  cases hf : wsFind tbl.finalVersionizedValue key with
  | some v => rw [gai_found hf]; exact h
  | none =>
    cases hsv : tbl.storage key with
    | err e => rw [gai_err hf hsv]; exact h
    | found val =>
      rw [gai_load hf (fun e he => by rw [hsv] at he; exact StoreResult.noConfusion he)]
      obtain ⟨h1, h2, h3⟩ := invariant_parts h
      refine invariant_intro ?_ ?_ ?_
      · refine wsAll_wsInsert _ _ _ _ h1 ?_
        rfl
      · exact keysNodup_wsInsert _ _ _ h2
      · exact dirProps_mono (fun k hk => wsFind_isSome_wsInsert _ key _ k hk) _ h3
    | notFound =>
      rw [gai_load hf (fun e he => by rw [hsv] at he; exact StoreResult.noConfusion he)]
      obtain ⟨h1, h2, h3⟩ := invariant_parts h
      refine invariant_intro ?_ ?_ ?_
      · refine wsAll_wsInsert _ _ _ _ h1 ?_
        rfl
      · exact keysNodup_wsInsert _ _ _ h2
      · exact dirProps_mono (fun k hk => wsFind_isSome_wsInsert _ key _ k hk) _ h3

theorem gai_finalNV (tbl : StagingTable) (tid : Tid) (key : Key) (k : Key) :
    finalNewVersion ((getAndIncrValueFromFinalVersionValue tbl tid key).2) k =
      finalNewVersion tbl k := by
  cases hf : wsFind tbl.finalVersionizedValue key with
  | some v => rw [gai_found hf]
  | none =>
    cases hsv : tbl.storage key with
    | err e => rw [gai_err hf hsv]
    | found val =>
      rw [gai_load hf (fun e he => by rw [hsv] at he; exact StoreResult.noConfusion he)]
      by_cases hk : key = k
      · subst hk
        simp [finalNewVersion, optNew, wsFind_wsInsert_self, hf, loadedDefault,
          NewDefaultVersionizedValueItem]
      · simp [finalNewVersion, wsFind_wsInsert_ne _ _ _ _ hk]
    | notFound =>
      rw [gai_load hf (fun e he => by rw [hsv] at he; exact StoreResult.noConfusion he)]
      by_cases hk : key = k
      · subst hk
        simp [finalNewVersion, optNew, wsFind_wsInsert_self, hf, loadedDefault,
          NewDefaultVersionizedValueItem]
      · simp [finalNewVersion, wsFind_wsInsert_ne _ _ _ _ hk]

theorem gai_dir (tbl : StagingTable) (tid : Tid) (key : Key) :
    ((getAndIncrValueFromFinalVersionValue tbl tid key).2).allVersionizedValues =
      tbl.allVersionizedValues := by
  cases hf : wsFind tbl.finalVersionizedValue key with
  | some v => rw [gai_found hf]
  | none =>
    cases hsv : tbl.storage key with
    | err e => rw [gai_err hf hsv]
    | found val =>
      rw [gai_load hf (fun e he => by rw [hsv] at he; exact StoreResult.noConfusion he)]
    | notFound =>
      rw [gai_load hf (fun e he => by rw [hsv] at he; exact StoreResult.noConfusion he)]

theorem gai_storage (tbl : StagingTable) (tid : Tid) (key : Key) :
    ((getAndIncrValueFromFinalVersionValue tbl tid key).2).storage = tbl.storage := by
  cases hf : wsFind tbl.finalVersionizedValue key with
  | some v => rw [gai_found hf]
  | none =>
    cases hsv : tbl.storage key with
    | err e => rw [gai_err hf hsv]
    | found val =>
      rw [gai_load hf (fun e he => by rw [hsv] at he; exact StoreResult.noConfusion he)]
    | notFound =>
      rw [gai_load hf (fun e he => by rw [hsv] at he; exact StoreResult.noConfusion he)]

theorem gai_ok_val {tbl : StagingTable} {tid : Tid} {key : Key}
    {v : VersionizedValueItem}
    (h : (getAndIncrValueFromFinalVersionValue tbl tid key).1 = Except.ok v) :
    v = IncrVersionizedValueItem tid (derivedBase tbl key) := by
  cases hf : wsFind tbl.finalVersionizedValue key with
  | some w =>
    rw [gai_found hf] at h
    rw [derivedBase, hf]
    have hv : IncrVersionizedValueItem tid w = v := by simpa using h
    exact hv.symm
  | none =>
    cases hsv : tbl.storage key with
    | err e =>
      rw [gai_err hf hsv] at h
      exact absurd h (by simp)
    | found val =>
      rw [gai_load hf (fun e he => by rw [hsv] at he; exact StoreResult.noConfusion he)] at h
      rw [derivedBase, hf]
      have hv : IncrVersionizedValueItem tid (loadedDefault tbl key) = v := by simpa using h
      exact hv.symm
    | notFound =>
      rw [gai_load hf (fun e he => by rw [hsv] at he; exact StoreResult.noConfusion he)] at h
      rw [derivedBase, hf]
      have hv : IncrVersionizedValueItem tid (loadedDefault tbl key) = v := by simpa using h
      exact hv.symm

theorem gai_ok_key_covered {tbl : StagingTable} {tid : Tid} {key : Key}
    {v : VersionizedValueItem}
    (h : (getAndIncrValueFromFinalVersionValue tbl tid key).1 = Except.ok v) :
    (wsFind ((getAndIncrValueFromFinalVersionValue tbl tid key).2).finalVersionizedValue
      key).isSome = true := by
  cases hf : wsFind tbl.finalVersionizedValue key with
  | some w => rw [gai_found hf]; simp [hf]
  | none =>
    cases hsv : tbl.storage key with
    | err e =>
      rw [gai_err hf hsv] at h
      exact absurd h (by simp)
    | found val =>
      rw [gai_load hf (fun e he => by rw [hsv] at he; exact StoreResult.noConfusion he)]
      simp [wsFind_wsInsert_self]
    | notFound =>
      rw [gai_load hf (fun e he => by rw [hsv] at he; exact StoreResult.noConfusion he)]
      simp [wsFind_wsInsert_self]

theorem gai_err_state {tbl : StagingTable} {tid : Tid} {key : Key} {e : Nat}
    (h : (getAndIncrValueFromFinalVersionValue tbl tid key).1 = Except.error e) :
    (getAndIncrValueFromFinalVersionValue tbl tid key).2 = tbl ∧
    wsFind tbl.finalVersionizedValue key = none ∧
    tbl.storage key = StoreResult.err e := by
  cases hf : wsFind tbl.finalVersionizedValue key with
  | some w =>
    rw [gai_found hf] at h
    exact absurd h (by simp)
  | none =>
    cases hsv : tbl.storage key with
    | err e0 =>
      rw [gai_err hf hsv] at h ⊢
      obtain rfl : e0 = e := by simpa using h
      exact ⟨rfl, rfl, rfl⟩
    | found val =>
      rw [gai_load hf (fun e1 he => by rw [hsv] at he; exact StoreResult.noConfusion he)] at h
      exact absurd h (by simp)
    | notFound =>
      rw [gai_load hf (fun e1 he => by rw [hsv] at he; exact StoreResult.noConfusion he)] at h
      exact absurd h (by simp)

theorem ste_final_some (tbl : StagingTable) (t : Nat) (key : Key)
    (v : VersionizedValueItem) :
    (setTidEntry tbl (some t) key v).finalVersionizedValue =
      tbl.finalVersionizedValue := rfl

theorem ste_final_none (tbl : StagingTable) (key : Key) (v : VersionizedValueItem) :
    (setTidEntry tbl none key v).finalVersionizedValue =
      wsInsert tbl.finalVersionizedValue key v := rfl

theorem ste_finalNV_some (tbl : StagingTable) (t : Nat) (key : Key)
    (v : VersionizedValueItem) (k : Key) :
    finalNewVersion (setTidEntry tbl (some t) key v) k = finalNewVersion tbl k := rfl

theorem ste_finalNV_none (tbl : StagingTable) (key : Key)
    (v : VersionizedValueItem) (k : Key) :
    finalNewVersion (setTidEntry tbl none key v) k =
      if key = k then v.new else finalNewVersion tbl k := by
  rw [finalNewVersion, ste_final_none, wsFind_wsInsert]
  by_cases hk : key = k
  · simp [hk, optNew]
  · simp [hk, finalNewVersion]

theorem ste_inv {tbl : StagingTable} (h : invariant tbl = true) (tid : Tid)
    (key : Key) (v : VersionizedValueItem)
    (hcov : (wsFind tbl.finalVersionizedValue key).isSome = true)
    (hver : versionOk v = true)
    (hstrict : ∀ t, tid = some t → v.new = v.old + 1) :
    invariant (setTidEntry tbl tid key v) = true := by
  obtain ⟨h1, h2, h3⟩ := invariant_parts h
  cases tid with
  | none =>
    refine invariant_intro ?_ ?_ ?_
    · exact wsAll_wsInsert _ _ _ _ h1 hver
    · exact keysNodup_wsInsert _ _ _ h2
    · exact dirProps_mono (fun k hk => wsFind_isSome_wsInsert _ key v k hk) _ h3
  | some t =>
    have hst : v.new = v.old + 1 := hstrict t rfl
    refine invariant_intro h1 h2 ?_
    simp only [setTidEntry]
    apply dirAll_dirInsert _ _ _ _ h3
    rw [Bool.and_eq_true, Bool.and_eq_true]
    cases hd : dirFind tbl.allVersionizedValues t with
    | none =>
      refine ⟨⟨?_, ?_⟩, ?_⟩
      · simp [wsCovered, wsInsert, wsFind, hcov]
      · simp [wsDerived, wsInsert, hst]
      · simp [keysNodup, wsInsert, wsFind]
    | some ws =>
      rw [List.all_eq_true] at h3
      have h0 := h3 (t, ws) (dirFind_mem hd)
      rw [Bool.and_eq_true, Bool.and_eq_true] at h0
      refine ⟨⟨?_, ?_⟩, ?_⟩
      · exact wsAll_wsInsert _ _ _ _ h0.1.1 hcov
      · refine wsAll_wsInsert _ _ _ _ h0.1.2 ?_
        simp [hst]
      · exact keysNodup_wsInsert _ _ _ h0.2

theorem gvvfu_found {tbl : StagingTable} {tid : Tid} {key : Key}
    {v : VersionizedValueItem}
    (hf : wsFind ((getVersionizedValuesOfTid tbl tid).1) key = some v) :
    getVersionizedValueForUpdate tbl tid key =
      (Except.ok v, (getVersionizedValuesOfTid tbl tid).2) := by
  simp [getVersionizedValueForUpdate, hf]

theorem gvvfu_derived_ok {tbl : StagingTable} {tid : Tid} {key : Key}
    {v : VersionizedValueItem}
    (hf : wsFind ((getVersionizedValuesOfTid tbl tid).1) key = none)
    (hg : (getAndIncrValueFromFinalVersionValue
      ((getVersionizedValuesOfTid tbl tid).2) tid key).1 = Except.ok v) :
    getVersionizedValueForUpdate tbl tid key =
      (Except.ok v,
       setTidEntry ((getAndIncrValueFromFinalVersionValue
         ((getVersionizedValuesOfTid tbl tid).2) tid key).2) tid key v) := by
  simp [getVersionizedValueForUpdate, hf, hg]

theorem gvvfu_derived_err {tbl : StagingTable} {tid : Tid} {key : Key} {e : Nat}
    (hf : wsFind ((getVersionizedValuesOfTid tbl tid).1) key = none)
    (hg : (getAndIncrValueFromFinalVersionValue
      ((getVersionizedValuesOfTid tbl tid).2) tid key).1 = Except.error e) :
    getVersionizedValueForUpdate tbl tid key =
      (Except.error e,
       (getAndIncrValueFromFinalVersionValue
         ((getVersionizedValuesOfTid tbl tid).2) tid key).2) := by
  simp [getVersionizedValueForUpdate, hf, hg]

theorem gvvfu_inv {tbl : StagingTable} (h : invariant tbl = true) (tid : Tid)
    (key : Key) :
    invariant ((getVersionizedValueForUpdate tbl tid key).2) = true := by
  have h1 := gvvot_inv h tid
  cases hf : wsFind ((getVersionizedValuesOfTid tbl tid).1) key with
  | some v => rw [gvvfu_found hf]; exact h1
  | none =>
    have h2 := gai_inv h1 tid key
    cases hg : (getAndIncrValueFromFinalVersionValue
        ((getVersionizedValuesOfTid tbl tid).2) tid key).1 with
    | error e => rw [gvvfu_derived_err hf hg]; exact h2
    | ok v =>
      rw [gvvfu_derived_ok hf hg]
      have hval := gai_ok_val hg
      refine ste_inv h2 tid key v (gai_ok_key_covered hg) ?_ ?_
      · rw [hval]; simp [versionOk, IncrVersionizedValueItem]
      · intro t ht; rw [hval]; rfl

theorem gvvfu_finalNV {tbl : StagingTable} (h : invariant tbl = true) (tid : Tid)
    (key : Key) (k : Key) :
    finalNewVersion ((getVersionizedValueForUpdate tbl tid key).2) k =
      finalNewVersion tbl k ∨
    (k = key ∧ tid = none ∧ wsFind tbl.finalVersionizedValue key = none ∧
     finalNewVersion ((getVersionizedValueForUpdate tbl tid key).2) k =
       finalNewVersion tbl k + 1) := by
  cases hf : wsFind ((getVersionizedValuesOfTid tbl tid).1) key with
  | some v =>
    rw [gvvfu_found hf]
    exact Or.inl (gvvot_finalNV tbl tid k)
  | none =>
    cases hg : (getAndIncrValueFromFinalVersionValue
        ((getVersionizedValuesOfTid tbl tid).2) tid key).1 with
    | error e =>
      rw [gvvfu_derived_err hf hg]
      exact Or.inl (by rw [gai_finalNV, gvvot_finalNV])
    | ok v =>
      rw [gvvfu_derived_ok hf hg]
      cases tid with
      | some t =>
        rw [ste_finalNV_some, gai_finalNV, gvvot_finalNV]
        exact Or.inl rfl
      | none =>
        rw [ste_finalNV_none]
        by_cases hk : key = k
        · rw [if_pos hk]
          subst hk
          have hval := gai_ok_val hg
          have hmiss : wsFind tbl.finalVersionizedValue key = none := hf
          have hbase : derivedBase ((getVersionizedValuesOfTid tbl none).2) key =
              loadedDefault tbl key := by
            rw [derivedBase]
            rw [show ((getVersionizedValuesOfTid tbl none).2) = tbl from rfl, hmiss]
          refine Or.inr ⟨rfl, rfl, hmiss, ?_⟩
          rw [hval, hbase]
          have hz : finalNewVersion tbl key = 0 := by
            rw [finalNewVersion, hmiss]
            rfl
          rw [hz]
          rfl
        · rw [if_neg hk, gai_finalNV]
          exact Or.inl rfl

theorem gvvfu_ok_shape {tbl : StagingTable} (h : invariant tbl = true)
    {tid : Tid} {key : Key} {v : VersionizedValueItem}
    (hok : (getVersionizedValueForUpdate tbl tid key).1 = Except.ok v) :
    versionOk v = true ∧
    (∀ t, tid = some t → v.new = v.old + 1) ∧
    (wsFind ((getVersionizedValueForUpdate tbl tid key).2).finalVersionizedValue
      key).isSome = true := by
  cases hf : wsFind ((getVersionizedValuesOfTid tbl tid).1) key with
  | some w =>
    rw [gvvfu_found hf] at hok
    obtain rfl : w = v := by simpa using hok
    rw [gvvfu_found hf]
    have hcov := gvvot_covered h tid
    rw [wsCovered, List.all_eq_true] at hcov
    have hc := hcov (key, w) (wsFind_mem hf)
    constructor
    · exact gvvot_entry_versionOk h tid (key, w) (wsFind_mem hf)
    · constructor
      · intro t ht
        subst ht
        have hd := gvvot_derived h t
        rw [wsDerived, List.all_eq_true] at hd
        have := hd (key, w) (wsFind_mem hf)
        simpa using this
      · rw [gvvot_final]
        exact hc
  | none =>
    cases hg : (getAndIncrValueFromFinalVersionValue
        ((getVersionizedValuesOfTid tbl tid).2) tid key).1 with
    | error e =>
      rw [gvvfu_derived_err hf hg] at hok
      exact absurd hok (by simp)
    | ok w =>
      rw [gvvfu_derived_ok hf hg] at hok
      obtain rfl : w = v := by simpa using hok
      rw [gvvfu_derived_ok hf hg]
      have hval := gai_ok_val hg
      refine ⟨by rw [hval]; simp [versionOk, IncrVersionizedValueItem],
        fun t ht => by rw [hval]; rfl, ?_⟩
      cases tid with
      | none =>
        rw [ste_final_none]
        simp [wsFind_wsInsert_self]
      | some t =>
        rw [ste_final_some]
        exact gai_ok_key_covered hg

theorem mutateStep_inv {tbl : StagingTable} (h : invariant tbl = true)
    (tid : Tid) (key : Key) (m : VersionizedValueItem → VersionizedValueItem)
    (hm_old : ∀ w, (m w).old = w.old) (hm_new : ∀ w, (m w).new = w.new) :
    invariant (mutateStep tbl tid key m) = true := by
  simp only [mutateStep]
  cases hok : (getVersionizedValueForUpdate tbl tid key).1 with
  | error e => exact gvvfu_inv h tid key
  | ok v =>
    obtain ⟨hver, hstrict, hcov⟩ := gvvfu_ok_shape h hok
    refine ste_inv (gvvfu_inv h tid key) tid key (m v) hcov ?_ ?_
    · rw [versionOk, hm_old, hm_new]
      rw [versionOk] at hver
      exact hver
    · intro t ht
      rw [hm_old, hm_new]
      exact hstrict t ht

theorem mutateStep_finalNV {tbl : StagingTable} (h : invariant tbl = true)
    (tid : Tid) (key : Key) (m : VersionizedValueItem → VersionizedValueItem)
    (hm_new : ∀ w, (m w).new = w.new) (k : Key) :
    finalNewVersion (mutateStep tbl tid key m) k = finalNewVersion tbl k ∨
    (k = key ∧ tid = none ∧ wsFind tbl.finalVersionizedValue key = none ∧
     finalNewVersion (mutateStep tbl tid key m) k = finalNewVersion tbl k + 1) := by
  simp only [mutateStep]
  cases hok : (getVersionizedValueForUpdate tbl tid key).1 with
  | error e => exact gvvfu_finalNV h tid key k
  | ok v =>
    cases tid with
    | some t =>
      rw [ste_finalNV_some]
      rcases gvvfu_finalNV h (some t) key k with h1 | h1
      · exact Or.inl h1
      · exact absurd h1.2.1 (by simp)
    | none =>
      rw [ste_finalNV_none]
      by_cases hk : key = k
      · rw [if_pos hk]
        subst hk
        rw [hm_new]
        cases hf : wsFind ((getVersionizedValuesOfTid tbl none).1) key with
        | some w =>
          rw [gvvfu_found hf] at hok
          have hwv : w = v := by simpa using hok
          rw [← hwv]
          have hw : wsFind tbl.finalVersionizedValue key = some w := hf
          refine Or.inl ?_
          rw [finalNewVersion, hw]
          rfl
        | none =>
          cases hg : (getAndIncrValueFromFinalVersionValue
              ((getVersionizedValuesOfTid tbl none).2) none key).1 with
          | error e =>
            rw [gvvfu_derived_err hf hg] at hok
            exact absurd hok (by simp)
          | ok w =>
            rw [gvvfu_derived_ok hf hg] at hok
            have hwv : w = v := by simpa using hok
            rw [← hwv]
            have hval := gai_ok_val hg
            have hmiss : wsFind tbl.finalVersionizedValue key = none := hf
            have hbase : derivedBase ((getVersionizedValuesOfTid tbl none).2) key =
                loadedDefault tbl key := by
              rw [derivedBase]
              rw [show ((getVersionizedValuesOfTid tbl none).2) = tbl from rfl, hmiss]
            refine Or.inr ⟨rfl, rfl, hmiss, ?_⟩
            rw [hval, hbase]
            have hz : finalNewVersion tbl key = 0 := by
              rw [finalNewVersion, hmiss]
              rfl
            rw [hz]
            rfl
      · rw [if_neg hk]
        rcases gvvfu_finalNV h none key k with h1 | h1
        · exact Or.inl h1
        · exact absurd h1.1 (fun he => hk he.symm)

theorem put_snd (tbl : StagingTable) (tid : Tid) (key : Key) (val : Val) :
    (tbl.Put tid key val).2 =
      mutateStep tbl tid key
        (fun w => { w with dirty := w.dirty || w.val != val, val := val }) := by
  simp only [StagingTable.Put, mutateStep]
  cases (getVersionizedValueForUpdate tbl tid key).1 <;> rfl

theorem set_snd (tbl : StagingTable) (tid : Tid) (key : Key) (val : Val)
    (hdeleted hdirty : Bool) :
    (tbl.Set tid key val hdeleted hdirty).2 =
      mutateStep tbl tid key
        (fun w => { w with val := val, deleted := hdeleted, dirty := hdirty }) := by
  simp only [StagingTable.Set, mutateStep]
  cases (getVersionizedValueForUpdate tbl tid key).1 <;> rfl

theorem del_snd (tbl : StagingTable) (tid : Tid) (key : Key) :
    (tbl.Del tid key).2 =
      mutateStep tbl tid key (fun w => { w with deleted := true, dirty := true }) := by
  simp only [StagingTable.Del, mutateStep]
  cases (getVersionizedValueForUpdate tbl tid key).1 <;> rfl

theorem purge_final (tbl : StagingTable) (tid : Tid) :
    (tbl.Purge tid).finalVersionizedValue = tbl.finalVersionizedValue := by
  cases tid <;> rfl

theorem purge_inv {tbl : StagingTable} (h : invariant tbl = true) (tid : Tid) :
    invariant (tbl.Purge tid) = true := by
  cases tid with
  | none => exact h
  | some t =>
    obtain ⟨h1, h2, h3⟩ := invariant_parts h
    exact invariant_intro h1 h2 (dirAll_dirDelete _ _ _ h3)

theorem versionOk_clone (v : VersionizedValueItem) :
    versionOk v.CloneForFinal = versionOk v := rfl

theorem merge_eq_none {tbl : StagingTable} {tid : Tid}
    (hc : mergeCheck ((getVersionizedValuesOfTid tbl tid).2).finalVersionizedValue
      ((getVersionizedValuesOfTid tbl tid).1) = none) :
    mergeToFinal tbl tid =
      (MergeResult.nilDeref, (getVersionizedValuesOfTid tbl tid).2) := by
  simp [mergeToFinal, hc]

theorem merge_eq_conflict {tbl : StagingTable} {tid : Tid}
    {cs : List (Key × Tid)} {ds : List Tid}
    (hc : mergeCheck ((getVersionizedValuesOfTid tbl tid).2).finalVersionizedValue
      ((getVersionizedValuesOfTid tbl tid).1) = some (cs, ds))
    (hcs : cs ≠ []) :
    mergeToFinal tbl tid =
      (MergeResult.conflictErr, (getVersionizedValuesOfTid tbl tid).2) := by
  simp [mergeToFinal, hc, hcs]

theorem merge_eq_ok {tbl : StagingTable} {tid : Tid} {ds : List Tid}
    (hc : mergeCheck ((getVersionizedValuesOfTid tbl tid).2).finalVersionizedValue
      ((getVersionizedValuesOfTid tbl tid).1) = some ([], ds)) :
    mergeToFinal tbl tid =
      (MergeResult.ok ds,
       { (getVersionizedValuesOfTid tbl tid).2 with finalVersionizedValue := mergeApply ((getVersionizedValuesOfTid tbl tid).2).finalVersionizedValue ((getVersionizedValuesOfTid tbl tid).1) }) := by
  simp [mergeToFinal, hc]

theorem merge_inv {tbl : StagingTable} (h : invariant tbl = true) (tid : Tid) :
    invariant ((mergeToFinal tbl tid).2) = true := by
  have h1 := gvvot_inv h tid
  cases hc : mergeCheck ((getVersionizedValuesOfTid tbl tid).2).finalVersionizedValue
      ((getVersionizedValuesOfTid tbl tid).1) with
  | none => rw [merge_eq_none hc]; exact h1
  | some cd =>
    obtain ⟨cs, ds⟩ := cd
    by_cases hcs : cs = []
    · subst hcs
      rw [merge_eq_ok hc]
      obtain ⟨g1, g2, g3⟩ := invariant_parts h1
      refine invariant_intro ?_ ?_ ?_
      · refine mergeApply_all _ _ _ g1 ?_
        intro kv hm
        rw [versionOk_clone]
        have hfe : ((getVersionizedValuesOfTid tbl tid).2).finalVersionizedValue =
            tbl.finalVersionizedValue := gvvot_final tbl tid
        exact gvvot_entry_versionOk h tid kv hm
      · exact mergeApply_keysNodup _ _ g2
      · exact dirProps_mono (fun k hk => mergeApply_isSome _ _ _ hk) _ g3
    · rw [merge_eq_conflict hc hcs]
      exact h1

theorem merge_finalNV {tbl : StagingTable} (h : invariant tbl = true)
    (tid : Tid) (k : Key) :
    finalNewVersion ((mergeToFinal tbl tid).2) k = finalNewVersion tbl k ∨
    ((∃ ds, (mergeToFinal tbl tid).1 = MergeResult.ok ds) ∧
     finalNewVersion ((mergeToFinal tbl tid).2) k = finalNewVersion tbl k + 1) := by
  cases hc : mergeCheck ((getVersionizedValuesOfTid tbl tid).2).finalVersionizedValue
      ((getVersionizedValuesOfTid tbl tid).1) with
  | none =>
    rw [merge_eq_none hc]
    exact Or.inl (gvvot_finalNV tbl tid k)
  | some cd =>
    obtain ⟨cs, ds⟩ := cd
    by_cases hcs : cs = []
    · subst hcs
      rw [merge_eq_ok hc]
      have hfe : ((getVersionizedValuesOfTid tbl tid).2).finalVersionizedValue =
          tbl.finalVersionizedValue := gvvot_final tbl tid
      cases hw : wsFind ((getVersionizedValuesOfTid tbl tid).1) k with
      | none =>
        refine Or.inl ?_
        rw [finalNewVersion]
        rw [show ({ (getVersionizedValuesOfTid tbl tid).2 with finalVersionizedValue := mergeApply ((getVersionizedValuesOfTid tbl tid).2).finalVersionizedValue ((getVersionizedValuesOfTid tbl tid).1) } : StagingTable).finalVersionizedValue = mergeApply ((getVersionizedValuesOfTid tbl tid).2).finalVersionizedValue ((getVersionizedValuesOfTid tbl tid).1) from rfl]
        rw [mergeApply_wsFind_not_mem _ _ _ hw, hfe]
        rw [finalNewVersion]
      | some v =>
        have hnd := gvvot_nodup h tid
        rw [finalNewVersion]
        rw [show ({ (getVersionizedValuesOfTid tbl tid).2 with finalVersionizedValue := mergeApply ((getVersionizedValuesOfTid tbl tid).2).finalVersionizedValue ((getVersionizedValuesOfTid tbl tid).1) } : StagingTable).finalVersionizedValue = mergeApply ((getVersionizedValuesOfTid tbl tid).2).finalVersionizedValue ((getVersionizedValuesOfTid tbl tid).1) from rfl]
        rw [mergeApply_wsFind_mem _ _ _ _ hnd hw]
        have hmem := wsFind_mem hw
        by_cases hdirty : v.dirty
        · rw [if_pos hdirty]
          have hcov := mergeCheck_covered _ _ _ _ hc (k, v) hmem
          cases hfk : wsFind ((getVersionizedValuesOfTid tbl tid).2).finalVersionizedValue k with
          | none => rw [hfk] at hcov; simp at hcov
          | some f =>
            have hnoc := (mergeCheck_conflicts _ _ _ _ hc).1 rfl (k, v) hmem f hfk
            have hfNV : finalNewVersion tbl k = f.new := by
              rw [finalNewVersion, ← hfe, hfk]
              rfl
            cases tid with
            | some t =>
              have hd := gvvot_derived h t
              rw [wsDerived, List.all_eq_true] at hd
              have hstrict : v.new = v.old + 1 := by simpa using hd (k, v) hmem
              refine Or.inr ⟨⟨ds, rfl⟩, ?_⟩
              rw [hfNV]
              show v.new = f.new + 1
              have hnoc2 : v.old = f.new := hnoc
              rw [hstrict, hnoc2]
            | none =>
              have hw2 : wsFind tbl.finalVersionizedValue k = some v := hw
              have hfk2 : wsFind tbl.finalVersionizedValue k = some f := hfk
              obtain rfl : v = f := by
                rw [hw2] at hfk2
                simpa using hfk2
              refine Or.inl ?_
              rw [hfNV]
              rfl
        · rw [if_neg hdirty]
          refine Or.inl ?_
          rw [hfe]
          rw [finalNewVersion]
    · rw [merge_eq_conflict hc hcs]
      exact Or.inl (gvvot_finalNV tbl tid k)

theorem applyOp_inv {tbl : StagingTable} (h : invariant tbl = true) (op : Op) :
    invariant (applyOp tbl op) = true := by
  cases op with
  | get tid key => exact gvvfu_inv h tid key
  | put tid key val =>
    rw [applyOp, put_snd]
    exact mutateStep_inv h tid key _ (fun w => rfl) (fun w => rfl)
  | set tid key val hdel hdir =>
    rw [applyOp, set_snd]
    exact mutateStep_inv h tid key _ (fun w => rfl) (fun w => rfl)
  | del tid key =>
    rw [applyOp, del_snd]
    exact mutateStep_inv h tid key _ (fun w => rfl) (fun w => rfl)
  | purge tid => exact purge_inv h tid
  | merge tid => exact merge_inv h tid

theorem applyOp_finalNV {tbl : StagingTable} (h : invariant tbl = true)
    (op : Op) (k : Key) :
    finalNewVersion (applyOp tbl op) k = finalNewVersion tbl k ∨
    (finalNewVersion (applyOp tbl op) k = finalNewVersion tbl k + 1 ∧
     ((∃ tid ds, op = Op.merge tid ∧ (mergeToFinal tbl tid).1 = MergeResult.ok ds) ∨
      (op.noneAccessOn k = true ∧ wsFind tbl.finalVersionizedValue k = none))) := by
  cases op with
  | get tid key =>
    rcases gvvfu_finalNV h tid key k with h1 | ⟨hk, htid, hmiss, heq⟩
    · exact Or.inl h1
    · refine Or.inr ⟨heq, Or.inr ⟨?_, ?_⟩⟩
      · simp [Op.noneAccessOn, htid, hk]
      · rw [hk]; exact hmiss
  | put tid key val =>
    rw [applyOp, put_snd]
    rcases mutateStep_finalNV h tid key
        (fun w => { w with dirty := w.dirty || w.val != val, val := val })
        (fun w => rfl) k with h1 | ⟨hk, htid, hmiss, heq⟩
    · exact Or.inl h1
    · refine Or.inr ⟨heq, Or.inr ⟨?_, ?_⟩⟩
      · simp [Op.noneAccessOn, htid, hk]
      · rw [hk]; exact hmiss
  | set tid key val hdel hdir =>
    rw [applyOp, set_snd]
    rcases mutateStep_finalNV h tid key
        (fun w => { w with val := val, deleted := hdel, dirty := hdir })
        (fun w => rfl) k with h1 | ⟨hk, htid, hmiss, heq⟩
    · exact Or.inl h1
    · refine Or.inr ⟨heq, Or.inr ⟨?_, ?_⟩⟩
      · simp [Op.noneAccessOn, htid, hk]
      · rw [hk]; exact hmiss
  | del tid key =>
    rw [applyOp, del_snd]
    rcases mutateStep_finalNV h tid key
        (fun w => { w with deleted := true, dirty := true })
        (fun w => rfl) k with h1 | ⟨hk, htid, hmiss, heq⟩
    · exact Or.inl h1
    · refine Or.inr ⟨heq, Or.inr ⟨?_, ?_⟩⟩
      · simp [Op.noneAccessOn, htid, hk]
      · rw [hk]; exact hmiss
  | purge tid =>
    refine Or.inl ?_
    show finalNewVersion (tbl.Purge tid) k = finalNewVersion tbl k
    rw [finalNewVersion, finalNewVersion, purge_final]
  | merge tid =>
    rcases merge_finalNV h tid k with h1 | ⟨⟨ds, hds⟩, heq⟩
    · exact Or.inl h1
    · exact Or.inr ⟨heq, Or.inl ⟨tid, ds, rfl, hds⟩⟩

theorem foldl_inv (ops : List Op) :
    ∀ tbl : StagingTable, invariant tbl = true →
      invariant (ops.foldl applyOp tbl) = true := by
  induction ops with
  | nil => intro tbl h; simpa using h
  | cons op rest ih => intro tbl h; exact ih _ (applyOp_inv h op)

theorem run_inv (s : Key → StoreResult) (ops : List Op) :
    invariant (run s ops) = true :=
  foldl_inv ops _ rfl

/-! ### Remaining helper lemmas for the claims -/

theorem gvvot_storage (tbl : StagingTable) (tid : Tid) :
    ((getVersionizedValuesOfTid tbl tid).2).storage = tbl.storage := by
  cases tid with
  | none => rfl
  | some t =>
    simp only [getVersionizedValuesOfTid]
    cases dirFind tbl.allVersionizedValues t <;> rfl

theorem derivedBase_gvvot (tbl : StagingTable) (tid : Tid) (k : Key) :
    derivedBase ((getVersionizedValuesOfTid tbl tid).2) k = derivedBase tbl k := by
  rw [derivedBase, derivedBase, gvvot_final]
  cases wsFind tbl.finalVersionizedValue k with
  | some v => rfl
  | none =>
    rw [loadedDefault, loadedDefault, storedVal, storedVal, gvvot_storage]

theorem derivedBase_new (tbl : StagingTable) (k : Key) :
    (derivedBase tbl k).new = finalNewVersion tbl k := by
  rw [derivedBase, finalNewVersion]
  cases wsFind tbl.finalVersionizedValue k with
  | some v => rfl
  | none => rfl

theorem dirDelete_dirDelete (d : Dir) (t : Nat) :
    dirDelete (dirDelete d t) t = dirDelete d t := by
  induction d with
  | nil => rfl
  | cons tw rest ih =>
    obtain ⟨t0, w0⟩ := tw
    by_cases h0 : t0 = t
    · subst h0
      rw [dirDelete_cons_self, ih]
    · rw [dirDelete_cons_ne _ _ _ _ h0, dirDelete_cons_ne _ _ _ _ h0, ih]

theorem get_fresh_ok {tbl : StagingTable} {t : Nat} {k : Key}
    {v : VersionizedValueItem}
    (hf : wsFind ((getVersionizedValuesOfTid tbl (some t)).1) k = none)
    (hok : (tbl.Get (some t) k).1 = Except.ok v) :
    v = IncrVersionizedValueItem (some t) (derivedBase tbl k) := by
  cases hg : (getAndIncrValueFromFinalVersionValue
      ((getVersionizedValuesOfTid tbl (some t)).2) (some t) k).1 with
  | error e =>
    have he : (tbl.Get (some t) k).1 = Except.error e := by
      show (getVersionizedValueForUpdate tbl (some t) k).1 = Except.error e
      rw [gvvfu_derived_err hf hg]
    rw [he] at hok
    exact absurd hok (by simp)
  | ok w =>
    have he : (tbl.Get (some t) k).1 = Except.ok w := by
      show (getVersionizedValueForUpdate tbl (some t) k).1 = Except.ok w
      rw [gvvfu_derived_ok hf hg]
    rw [he] at hok
    obtain rfl : w = v := by simpa using hok
    rw [gai_ok_val hg, derivedBase_gvvot]

theorem get_found_none {tbl : StagingTable} {k : Key} {v : VersionizedValueItem}
    (hv : wsFind tbl.finalVersionizedValue k = some v) :
    tbl.Get none k = (Except.ok v, tbl) := by
  have hf : wsFind ((getVersionizedValuesOfTid tbl none).1) k = some v := hv
  show getVersionizedValueForUpdate tbl none k = (Except.ok v, tbl)
  rw [gvvfu_found hf]
  rfl


theorem mutateStep_found_none (tbl : StagingTable) (k : Key)
    (v : VersionizedValueItem) (m : VersionizedValueItem → VersionizedValueItem)
    (hv : wsFind tbl.finalVersionizedValue k = some v) :
    mutateStep tbl none k m = setTidEntry tbl none k (m v) := by
  have hf : wsFind ((getVersionizedValuesOfTid tbl none).1) k = some v := hv
  simp only [mutateStep]
  rw [gvvfu_found hf]
  rfl

/-! ### The claims -/

/-- C1: `MergeToFinal(tid)` returns the conflict error if and only if some key
in `tid`'s workspace has `oldVersion` different from the final workspace's
`newVersion` for that key at call time; and whenever it returns the conflict
error, the final workspace is completely unchanged.  (Stated for call states
in which every key of the workspace has a final entry, which claim C10 shows
holds in every reachable state; without it the source dereferences nil.) -/
theorem C1_merge_conflict_iff (tbl : StagingTable) (tid : Tid)
    (hcov : wsCovered tbl.finalVersionizedValue
      ((getVersionizedValuesOfTid tbl tid).1) = true) :
    ((mergeToFinal tbl tid).1 = MergeResult.conflictErr ↔
      ∃ kv ∈ (getVersionizedValuesOfTid tbl tid).1,
        kv.2.old ≠ finalNewVersion tbl kv.1) ∧
    ((mergeToFinal tbl tid).1 = MergeResult.conflictErr →
      ((mergeToFinal tbl tid).2).finalVersionizedValue = tbl.finalVersionizedValue) := by
  have hfe : ((getVersionizedValuesOfTid tbl tid).2).finalVersionizedValue =
      tbl.finalVersionizedValue := gvvot_final tbl tid
  have hcov2 : wsCovered ((getVersionizedValuesOfTid tbl tid).2).finalVersionizedValue
      ((getVersionizedValuesOfTid tbl tid).1) = true := by
    rw [hfe]; exact hcov
  have hNV : ∀ (kk : Key) (f : VersionizedValueItem),
      wsFind ((getVersionizedValuesOfTid tbl tid).2).finalVersionizedValue kk = some f →
      finalNewVersion tbl kk = f.new := by
    intro kk f hfk
    rw [finalNewVersion, ← hfe, hfk]
    rfl
  cases hc : mergeCheck ((getVersionizedValuesOfTid tbl tid).2).finalVersionizedValue
      ((getVersionizedValuesOfTid tbl tid).1) with
  | none => exact absurd hc (mergeCheck_isSome_of_covered _ _ hcov2)
  | some cd =>
    obtain ⟨cs, ds⟩ := cd
    have hbridge : cs = [] ↔ ∀ kv ∈ (getVersionizedValuesOfTid tbl tid).1,
        kv.2.old = finalNewVersion tbl kv.1 := by
      rw [mergeCheck_conflicts _ _ _ _ hc]
      constructor
      · intro hall kv hm
        rw [wsCovered, List.all_eq_true] at hcov2
        rcases Option.isSome_iff_exists.1 (hcov2 kv hm) with ⟨f, hfk⟩
        rw [hNV kv.1 f hfk]
        exact hall kv hm f hfk
      · intro hall kv hm f hfk
        have h0 := hall kv hm
        rw [hNV kv.1 f hfk] at h0
        exact h0
    by_cases hcs : cs = []
    · subst hcs
      rw [merge_eq_ok hc]
      constructor
      · constructor
        · intro habs
          exact absurd habs (by simp)
        · rintro ⟨kv, hm, hne⟩
          exact absurd (hbridge.1 rfl kv hm) hne
      · intro habs
        exact absurd habs (by simp)
    · rw [merge_eq_conflict hc hcs]
      constructor
      · constructor
        · intro _
          have hnall : ¬ ∀ kv ∈ (getVersionizedValuesOfTid tbl tid).1,
              kv.2.old = finalNewVersion tbl kv.1 :=
            fun hall => hcs (hbridge.2 hall)
          push_neg at hnall
          exact hnall
        · intro _
          rfl
      · intro _
        exact hfe

/-- Witness for C1 at the concrete conflicting table `wtbl1`. -/
theorem C1_witness :
    (wsCovered wtbl1.finalVersionizedValue
      ((getVersionizedValuesOfTid wtbl1 (some 1)).1) = true) ∧
    (((mergeToFinal wtbl1 (some 1)).1 = MergeResult.conflictErr ↔
       ∃ kv ∈ (getVersionizedValuesOfTid wtbl1 (some 1)).1,
         kv.2.old ≠ finalNewVersion wtbl1 kv.1) ∧
     ((mergeToFinal wtbl1 (some 1)).1 = MergeResult.conflictErr →
       ((mergeToFinal wtbl1 (some 1)).2).finalVersionizedValue =
         wtbl1.finalVersionizedValue)) :=
  ⟨by decide, C1_merge_conflict_iff wtbl1 (some 1) (by decide)⟩

/-- C2: when `MergeToFinal(tid)` succeeds, every dirty entry of `tid`'s
workspace is published to the final workspace as its publish clone (same
owner, key, value, versions and deleted flag, with dirty forced to true),
and every non-dirty entry leaves its final entry unchanged. -/
theorem C2_merge_success_publishes (tbl : StagingTable) (tid : Tid)
    (ds : List Tid)
    (hnd : keysNodup ((getVersionizedValuesOfTid tbl tid).1) = true)
    (hok : (mergeToFinal tbl tid).1 = MergeResult.ok ds) :
    ∀ k v, wsFind ((getVersionizedValuesOfTid tbl tid).1) k = some v →
      (v.dirty = true →
        wsFind ((mergeToFinal tbl tid).2).finalVersionizedValue k =
          some v.CloneForFinal ∧
        v.CloneForFinal = { tid := v.tid, key := v.key, val := v.val, old := v.old, new := v.new, deleted := v.deleted, dirty := true }) ∧
      (v.dirty = false →
        wsFind ((mergeToFinal tbl tid).2).finalVersionizedValue k =
          wsFind tbl.finalVersionizedValue k) := by
  have hfe := gvvot_final tbl tid
  cases hc : mergeCheck ((getVersionizedValuesOfTid tbl tid).2).finalVersionizedValue
      ((getVersionizedValuesOfTid tbl tid).1) with
  | none =>
    rw [merge_eq_none hc] at hok
    exact absurd hok (by simp)
  | some cd =>
    obtain ⟨cs, ds'⟩ := cd
    by_cases hcs : cs = []
    · subst hcs
      rw [merge_eq_ok hc]
      intro k v hkv
      have happ := mergeApply_wsFind_mem
        ((getVersionizedValuesOfTid tbl tid).2).finalVersionizedValue
        ((getVersionizedValuesOfTid tbl tid).1) k v hnd hkv
      constructor
      · intro hd
        rw [hd] at happ
        rw [if_pos rfl] at happ
        exact ⟨happ, rfl⟩
      · intro hd
        rw [hd] at happ
        simp only [Bool.false_eq_true, if_false] at happ
        rw [← hfe]
        exact happ
    · rw [merge_eq_conflict hc hcs] at hok
      exact absurd hok (by simp)

/-- Witness for C2 at the concrete table `wtbl2` (dirty entry published,
clean entry untouched). -/
theorem C2_witness :
    keysNodup ((getVersionizedValuesOfTid wtbl2 (some 1)).1) = true ∧
    (mergeToFinal wtbl2 (some 1)).1 = MergeResult.ok [some 2] ∧
    wsFind ((getVersionizedValuesOfTid wtbl2 (some 1)).1) [0] = some d1w ∧
    ((d1w.dirty = true →
       wsFind ((mergeToFinal wtbl2 (some 1)).2).finalVersionizedValue [0] =
         some d1w.CloneForFinal ∧
       d1w.CloneForFinal = { tid := d1w.tid, key := d1w.key, val := d1w.val, old := d1w.old, new := d1w.new, deleted := d1w.deleted, dirty := true }) ∧
     (d1w.dirty = false →
       wsFind ((mergeToFinal wtbl2 (some 1)).2).finalVersionizedValue [0] =
         wsFind wtbl2.finalVersionizedValue [0])) :=
  ⟨by decide, by decide, by decide,
   C2_merge_success_publishes wtbl2 (some 1) [some 2] (by decide) (by decide)
     [0] d1w (by decide)⟩

/-- C3 (counterexample to the claim as stated): a `Put` with the nil
transaction identifier on a key absent from the final workspace raises that
key's final `newVersion` from 0 to 1 — a Get/Put/Set/Del call does change a
final version, without any `MergeToFinal`. -/
theorem C3_counterexample :
    finalNewVersion (applyOp (NewStagingTable (fun _ => StoreResult.notFound))
      (Op.put none [1] [7])) [1] = 1 ∧
    finalNewVersion (NewStagingTable (fun _ => StoreResult.notFound)) [1] = 0 ∧
    finalNewVersion (applyOp (NewStagingTable (fun _ => StoreResult.notFound))
      (Op.put none [1] [7])) [1] ≠
      finalNewVersion (NewStagingTable (fun _ => StoreResult.notFound)) [1] := by
  refine ⟨by decide, by decide, by decide⟩

/-- C3 (amended): along any operation sequence, a key's final `newVersion`
never decreases and changes only by exactly +1 at a time; a change happens
only through a successful `MergeToFinal`, or through a Get/Put/Set/Del with
the nil transaction identifier on a key that had no final entry yet. -/
theorem C3_version_step (s : Key → StoreResult) (ops : List Op) (op : Op)
    (k : Key) :
    (finalNewVersion (applyOp (run s ops) op) k = finalNewVersion (run s ops) k ∨
     finalNewVersion (applyOp (run s ops) op) k =
       finalNewVersion (run s ops) k + 1) ∧
    (finalNewVersion (applyOp (run s ops) op) k ≠ finalNewVersion (run s ops) k →
      (∃ tid ds, op = Op.merge tid ∧
        (mergeToFinal (run s ops) tid).1 = MergeResult.ok ds) ∨
      (op.noneAccessOn k = true ∧
       wsFind (run s ops).finalVersionizedValue k = none)) := by
  have h := run_inv s ops
  rcases applyOp_finalNV h op k with h1 | ⟨heq, hcause⟩
  · exact ⟨Or.inl h1, fun hne => absurd h1 hne⟩
  · exact ⟨Or.inr heq, fun hne => hcause⟩

/-- Witness for the amended C3: the version change of the counterexample
operation is attributed to a nil-identifier access on a fresh key. -/
theorem C3_witness :
    (finalNewVersion (applyOp (run (fun _ => StoreResult.notFound) [])
        (Op.put none [1] [7])) [1] ≠
      finalNewVersion (run (fun _ => StoreResult.notFound) []) [1]) ∧
    ((∃ tid ds, Op.put none [1] [7] = Op.merge tid ∧
        (mergeToFinal (run (fun _ => StoreResult.notFound) []) tid).1 =
          MergeResult.ok ds) ∨
     ((Op.put none [1] [7]).noneAccessOn [1] = true ∧
      wsFind (run (fun _ => StoreResult.notFound) []).finalVersionizedValue [1] =
        none)) :=
  ⟨by decide,
   (C3_version_step (fun _ => StoreResult.notFound) [] (Op.put none [1] [7]) [1]).2
     (by decide)⟩

/-- C4 (counterexample to the claim as stated): `Get` with the nil
transaction identifier on a key with no final entry does create a
version-incremented copy — it installs an entry with version pair (0, 1)
in the final workspace. -/
theorem C4_counterexample :
    wsFind (applyOp (NewStagingTable (fun _ => StoreResult.notFound))
      (Op.get none [0])).finalVersionizedValue [0] =
      some { tid := none, key := [0], val := [], old := 0, new := 1, deleted := false, dirty := false } ∧
    wsFind (NewStagingTable
      (fun _ => StoreResult.notFound)).finalVersionizedValue [0] = none ∧
    finalNewVersion (applyOp (NewStagingTable (fun _ => StoreResult.notFound))
      (Op.get none [0])) [0] ≠
      finalNewVersion (NewStagingTable (fun _ => StoreResult.notFound)) [0] := by
  refine ⟨by decide, by decide, by decide⟩

/-- C4 (amended): for a key that already has a final entry, Get/Put/Set/Del
with the nil transaction identifier act directly on the final workspace —
the per-transaction directory is untouched and the final entry keeps its
version pair.  (For a key with no final entry the lazy first-touch
derivation still runs and installs a version-incremented entry, as the
counterexample shows.) -/
theorem C4_none_tid_direct (tbl : StagingTable) (op : Op) (k : Key)
    (v : VersionizedValueItem) (ha : op.noneAccessOn k = true)
    (hv : wsFind tbl.finalVersionizedValue k = some v) :
    (applyOp tbl op).allVersionizedValues = tbl.allVersionizedValues ∧
    ∃ w, wsFind (applyOp tbl op).finalVersionizedValue k = some w ∧
      w.old = v.old ∧ w.new = v.new := by
  cases op with
  | get tid key =>
    simp only [Op.noneAccessOn, Bool.and_eq_true, decide_eq_true_eq] at ha
    obtain ⟨rfl, rfl⟩ := ha
    simp only [applyOp]
    rw [get_found_none hv]
    exact ⟨rfl, v, hv, rfl, rfl⟩
  | put tid key val =>
    simp only [Op.noneAccessOn, Bool.and_eq_true, decide_eq_true_eq] at ha
    obtain ⟨rfl, rfl⟩ := ha
    simp only [applyOp]
    rw [put_snd, mutateStep_found_none tbl _ v _ hv]
    refine ⟨rfl, { v with dirty := v.dirty || v.val != val, val := val }, ?_, rfl, rfl⟩
    rw [ste_final_none, wsFind_wsInsert_self]
  | set tid key val hdel hdir =>
    simp only [Op.noneAccessOn, Bool.and_eq_true, decide_eq_true_eq] at ha
    obtain ⟨rfl, rfl⟩ := ha
    simp only [applyOp]
    rw [set_snd, mutateStep_found_none tbl _ v _ hv]
    refine ⟨rfl, { v with val := val, deleted := hdel, dirty := hdir }, ?_, rfl, rfl⟩
    rw [ste_final_none, wsFind_wsInsert_self]
  | del tid key =>
    simp only [Op.noneAccessOn, Bool.and_eq_true, decide_eq_true_eq] at ha
    obtain ⟨rfl, rfl⟩ := ha
    simp only [applyOp]
    rw [del_snd, mutateStep_found_none tbl _ v _ hv]
    refine ⟨rfl, { v with deleted := true, dirty := true }, ?_, rfl, rfl⟩
    rw [ste_final_none, wsFind_wsInsert_self]
  | purge tid => simp [Op.noneAccessOn] at ha
  | merge tid => simp [Op.noneAccessOn] at ha

/-- Witness for the amended C4 at the concrete table `wtbl4`. -/
theorem C4_witness :
    ((Op.put none [0] [5]).noneAccessOn [0] = true) ∧
    (wsFind wtbl4.finalVersionizedValue [0] =
      some { tid := none, key := [0], val := [5], old := 0, new := 1, deleted := false, dirty := true }) ∧
    ((applyOp wtbl4 (Op.put none [0] [5])).allVersionizedValues =
      wtbl4.allVersionizedValues ∧
     ∃ w, wsFind (applyOp wtbl4 (Op.put none [0] [5])).finalVersionizedValue [0] =
        some w ∧
       w.old = ({ tid := none, key := [0], val := [5], old := 0, new := 1, deleted := false, dirty := true } : VersionizedValueItem).old ∧
       w.new = ({ tid := none, key := [0], val := [5], old := 0, new := 1, deleted := false, dirty := true } : VersionizedValueItem).new) :=
  ⟨by decide, by decide,
   C4_none_tid_direct wtbl4 (Op.put none [0] [5]) [0] _ (by decide) (by decide)⟩

/-- C5: for a non-nil `tid` and a key it has not touched, `Get` derives an
entry whose `oldVersion` is the final workspace's pre-call `newVersion` for
the key (0 when absent), whose `newVersion` is that plus one, with
`dirty = false` and value/deleted copied from the derivation base; for an
already-touched key `Get` returns the stored entry and changes nothing. -/
theorem C5_get_fresh (tbl : StagingTable) (t : Nat) (k : Key) :
    (∀ v, wsFind ((getVersionizedValuesOfTid tbl (some t)).1) k = none →
      (tbl.Get (some t) k).1 = Except.ok v →
      v.old = finalNewVersion tbl k ∧ v.new = v.old + 1 ∧ v.dirty = false ∧
      v.val = (derivedBase tbl k).val ∧
      v.deleted = (derivedBase tbl k).deleted) ∧
    (∀ w, wsFind ((getVersionizedValuesOfTid tbl (some t)).1) k = some w →
      tbl.Get (some t) k = (Except.ok w, tbl)) := by
  constructor
  · intro v hf hok
    have hval := get_fresh_ok hf hok
    rw [hval]
    refine ⟨?_, rfl, rfl, rfl, rfl⟩
    show (derivedBase tbl k).new = finalNewVersion tbl k
    exact derivedBase_new tbl k
  · intro w hw
    cases hd : dirFind tbl.allVersionizedValues t with
    | none =>
      have he : (getVersionizedValuesOfTid tbl (some t)).1 = [] := by
        simp [getVersionizedValuesOfTid, hd]
      rw [he] at hw
      simp [wsFind] at hw
    | some ws =>
      have hgv : getVersionizedValuesOfTid tbl (some t) = (ws, tbl) := by
        simp [getVersionizedValuesOfTid, hd]
      have hf : wsFind ((getVersionizedValuesOfTid tbl (some t)).1) k = some w := hw
      show getVersionizedValueForUpdate tbl (some t) k = (Except.ok w, tbl)
      rw [gvvfu_found hf, hgv]

/-- Witness for C5 at the concrete table `wtbl5`. -/
theorem C5_witness :
    wsFind ((getVersionizedValuesOfTid wtbl5 (some 1)).1) [0] = none ∧
    (wtbl5.Get (some 1) [0]).1 = Except.ok eC5 ∧
    (eC5.old = finalNewVersion wtbl5 [0] ∧ eC5.new = eC5.old + 1 ∧
     eC5.dirty = false ∧ eC5.val = (derivedBase wtbl5 [0]).val ∧
     eC5.deleted = (derivedBase wtbl5 [0]).deleted) :=
  ⟨by decide, by rfl,
   (C5_get_fresh wtbl5 1 [0]).1 eC5 (by decide) (by rfl)⟩

/-- C6: `Put(tid, key, v)` sets the entry's dirty flag to its previous dirty
flag OR-ed with whether `v` differs from the previous value, then overwrites
the value; a Put of the current value leaves dirty unchanged and a Put of a
differing value forces `dirty = true`. -/
theorem C6_put_dirty_rule (tbl : StagingTable) (tid : Tid) (k : Key)
    (val : Val) (v : VersionizedValueItem)
    (hget : (getVersionizedValueForUpdate tbl tid k).1 = Except.ok v) :
    ∃ w, (tbl.Put tid k val).1 = Except.ok w ∧
      w.dirty = (v.dirty || v.val != val) ∧ w.val = val ∧
      w.old = v.old ∧ w.new = v.new ∧ w.deleted = v.deleted ∧
      (v.val = val → w.dirty = v.dirty) ∧ (v.val ≠ val → w.dirty = true) := by
  refine ⟨{ v with dirty := v.dirty || v.val != val, val := val },
    ?_, rfl, rfl, rfl, rfl, rfl, ?_, ?_⟩
  · simp only [StagingTable.Put]
    rw [hget]
  · intro he
    simp [he]
  · intro hne
    have hb : (v.val != val) = true := bne_iff_ne.mpr hne
    rw [hb, Bool.or_true]

/-- Witness for C6 at the concrete table `wtbl6`. -/
theorem C6_witness :
    (getVersionizedValueForUpdate wtbl6 (some 1) [0]).1 = Except.ok eC6 ∧
    ∃ w, (wtbl6.Put (some 1) [0] [7]).1 = Except.ok w ∧
      w.dirty = (eC6.dirty || eC6.val != [7]) ∧ w.val = [7] ∧
      w.old = eC6.old ∧ w.new = eC6.new ∧ w.deleted = eC6.deleted ∧
      (eC6.val = [7] → w.dirty = eC6.dirty) ∧
      (eC6.val ≠ [7] → w.dirty = true) :=
  ⟨by rfl, C6_put_dirty_rule wtbl6 (some 1) [0] [7] eC6 (by rfl)⟩

/-- C7: `Purge(tid)` discards `tid`'s workspace; it is idempotent, a no-op
for the nil sentinel, leaves the final workspace alone, and a subsequent
`Get` re-derives the entry fresh from the current final workspace exactly as
if `tid` had never touched the key. -/
theorem C7_purge_semantics (tbl : StagingTable) (t : Nat) (k : Key)
    (v : VersionizedValueItem)
    (hget : ((tbl.Purge (some t)).Get (some t) k).1 = Except.ok v) :
    dirFind ((tbl.Purge (some t)).allVersionizedValues) t = none ∧
    (tbl.Purge (some t)).Purge (some t) = tbl.Purge (some t) ∧
    tbl.Purge none = tbl ∧
    (tbl.Purge (some t)).finalVersionizedValue = tbl.finalVersionizedValue ∧
    v = IncrVersionizedValueItem (some t) (derivedBase tbl k) := by
  refine ⟨?_, ?_, rfl, rfl, ?_⟩
  · show dirFind (dirDelete tbl.allVersionizedValues t) t = none
    rw [dirFind_dirDelete]
    simp
  · show ({ tbl with allVersionizedValues := dirDelete (dirDelete tbl.allVersionizedValues t) t } : StagingTable) = { tbl with allVersionizedValues := dirDelete tbl.allVersionizedValues t }
    rw [dirDelete_dirDelete]
  · have hd : dirFind ((tbl.Purge (some t)).allVersionizedValues) t = none := by
      show dirFind (dirDelete tbl.allVersionizedValues t) t = none
      rw [dirFind_dirDelete]
      simp
    have hf : wsFind ((getVersionizedValuesOfTid (tbl.Purge (some t)) (some t)).1)
        k = none := by
      simp [getVersionizedValuesOfTid, hd, wsFind]
    have hval := get_fresh_ok hf hget
    exact hval

/-- Witness for C7 at the concrete table `wtbl7`. -/
theorem C7_witness :
    ((wtbl7.Purge (some 1)).Get (some 1) [0]).1 = Except.ok eC7 ∧
    (dirFind ((wtbl7.Purge (some 1)).allVersionizedValues) 1 = none ∧
     (wtbl7.Purge (some 1)).Purge (some 1) = wtbl7.Purge (some 1) ∧
     wtbl7.Purge none = wtbl7 ∧
     (wtbl7.Purge (some 1)).finalVersionizedValue = wtbl7.finalVersionizedValue ∧
     eC7 = IncrVersionizedValueItem (some 1) (derivedBase wtbl7 [0])) :=
  ⟨by rfl, C7_purge_semantics wtbl7 1 [0] eC7 (by rfl)⟩

/-- C8: a successful `MergeToFinal(tid)` returns, without duplicates, exactly
the owners of the non-default final entries at the keys of `tid`'s
workspace; default final entries contribute nothing. -/
theorem C8_dependent_tids (tbl : StagingTable) (tid : Tid) (ds : List Tid)
    (hok : (mergeToFinal tbl tid).1 = MergeResult.ok ds) :
    ds.Nodup ∧
    ∀ t, (t ∈ ds ↔
      ∃ kv ∈ (getVersionizedValuesOfTid tbl tid).1,
        ∃ f, wsFind tbl.finalVersionizedValue kv.1 = some f ∧
          f.isDefault = false ∧ f.tid = t) := by
  have hfe := gvvot_final tbl tid
  cases hc : mergeCheck ((getVersionizedValuesOfTid tbl tid).2).finalVersionizedValue
      ((getVersionizedValuesOfTid tbl tid).1) with
  | none =>
    rw [merge_eq_none hc] at hok
    exact absurd hok (by simp)
  | some cd =>
    obtain ⟨cs, ds'⟩ := cd
    by_cases hcs : cs = []
    · subst hcs
      rw [merge_eq_ok hc] at hok
      obtain rfl : ds' = ds := by simpa using hok
      have hdeps := mergeCheck_deps _ _ _ hc
      simp only [hfe] at hdeps
      exact hdeps
    · rw [merge_eq_conflict hc hcs] at hok
      exact absurd hok (by simp)

/-- Witness for C8 at the concrete table `wtbl8`: the merge returns exactly
the owner of the non-default final entry, and the default entry contributes
nothing. -/
theorem C8_witness :
    (mergeToFinal wtbl8 (some 1)).1 = MergeResult.ok [some 2] ∧
    [some 2].Nodup ∧
    ((some 2 : Tid) ∈ ([some 2] : List Tid) ↔
      ∃ kv ∈ (getVersionizedValuesOfTid wtbl8 (some 1)).1,
        ∃ f, wsFind wtbl8.finalVersionizedValue kv.1 = some f ∧
          f.isDefault = false ∧ f.tid = some 2) :=
  ⟨by decide, (C8_dependent_tids wtbl8 (some 1) [some 2] (by decide)).1,
   (C8_dependent_tids wtbl8 (some 1) [some 2] (by decide)).2 (some 2)⟩

/-- C9: during a lazy load, a not-found outcome from the backing store is not
an error — it installs a default entry with an empty value — while any other
store error is returned unchanged to the caller of the triggering operation
and installs nothing in the final workspace. -/
theorem C9_store_error_handling (tbl : StagingTable) (tid : Tid) (k : Key)
    (hf : wsFind tbl.finalVersionizedValue k = none) :
    (tbl.storage k = StoreResult.notFound →
      getAndIncrValueFromFinalVersionValue tbl tid k =
        (Except.ok (IncrVersionizedValueItem tid (NewDefaultVersionizedValueItem k [])),
         { tbl with finalVersionizedValue := wsInsert tbl.finalVersionizedValue k (NewDefaultVersionizedValueItem k []) })) ∧
    (∀ e, tbl.storage k = StoreResult.err e →
      getAndIncrValueFromFinalVersionValue tbl tid k = (Except.error e, tbl)) ∧
    (∀ e, tbl.storage k = StoreResult.err e →
      wsFind ((getVersionizedValuesOfTid tbl tid).1) k = none →
      (tbl.Get tid k).1 = Except.error e ∧
      ((tbl.Get tid k).2).finalVersionizedValue = tbl.finalVersionizedValue) := by
  refine ⟨?_, ?_, ?_⟩
  · intro hs
    simp [getAndIncrValueFromFinalVersionValue, hf, hs]
  · intro e hs
    exact gai_err hf hs
  · intro e hs hw
    have hfe := gvvot_final tbl tid
    have hf2 : wsFind ((getVersionizedValuesOfTid tbl tid).2).finalVersionizedValue
        k = none := by
      rw [hfe]; exact hf
    have hs2 : ((getVersionizedValuesOfTid tbl tid).2).storage k =
        StoreResult.err e := by
      rw [gvvot_storage]; exact hs
    have hg := @gai_err ((getVersionizedValuesOfTid tbl tid).2) tid k e hf2 hs2
    have hg1 : (getAndIncrValueFromFinalVersionValue
        ((getVersionizedValuesOfTid tbl tid).2) tid k).1 = Except.error e := by
      rw [hg]
    have hge := gvvfu_derived_err hw hg1
    constructor
    · show (getVersionizedValueForUpdate tbl tid k).1 = Except.error e
      rw [hge]
    · show ((getVersionizedValueForUpdate tbl tid k).2).finalVersionizedValue =
        tbl.finalVersionizedValue
      rw [hge]
      show ((getAndIncrValueFromFinalVersionValue
        ((getVersionizedValuesOfTid tbl tid).2) tid k).2).finalVersionizedValue =
        tbl.finalVersionizedValue
      rw [hg]
      exact hfe

/-- Witness for C9 at the concrete table `wtbl9` (store error 42 on key
`[0]`). -/
theorem C9_witness :
    wtbl9.storage [0] = StoreResult.err 42 ∧
    ((wtbl9.Get (some 1) [0]).1 = Except.error 42 ∧
     ((wtbl9.Get (some 1) [0]).2).finalVersionizedValue =
       wtbl9.finalVersionizedValue) :=
  ⟨by decide,
   (C9_store_error_handling wtbl9 (some 1) [0] (by decide)).2.2 42
     (by decide) (by decide)⟩

/-- C10: in every reachable state, every key present in any non-nil
transaction workspace has an entry in the final workspace, and consequently
`MergeToFinal` never dereferences a missing final entry. -/
theorem C10_final_coverage (s : Key → StoreResult) (ops : List Op) :
    (run s ops).allVersionizedValues.all
      (fun tw => wsCovered (run s ops).finalVersionizedValue tw.2) = true ∧
    ∀ tid, (mergeToFinal (run s ops) tid).1 ≠ MergeResult.nilDeref := by
  have h := run_inv s ops
  constructor
  · have h3 := (invariant_parts h).2.2
    rw [List.all_eq_true] at h3 ⊢
    intro tw hm
    have h0 := h3 tw hm
    rw [Bool.and_eq_true, Bool.and_eq_true] at h0
    exact h0.1.1
  · intro tid
    have hcov := gvvot_covered h tid
    have hfe := gvvot_final (run s ops) tid
    have hcov2 : wsCovered
        ((getVersionizedValuesOfTid (run s ops) tid).2).finalVersionizedValue
        ((getVersionizedValuesOfTid (run s ops) tid).1) = true := by
      rw [hfe]; exact hcov
    cases hc : mergeCheck
        ((getVersionizedValuesOfTid (run s ops) tid).2).finalVersionizedValue
        ((getVersionizedValuesOfTid (run s ops) tid).1) with
    | none => exact absurd hc (mergeCheck_isSome_of_covered _ _ hcov2)
    | some cd =>
      obtain ⟨cs, ds⟩ := cd
      by_cases hcs : cs = []
      · subst hcs
        rw [merge_eq_ok hc]
        simp
      · rw [merge_eq_conflict hc hcs]
        simp

/-- Witness for C10 at a concrete run and merge. -/
theorem C10_witness :
    ((run (fun _ => StoreResult.notFound) [Op.put (some 1) [0] [2]]).allVersionizedValues.all
      (fun tw => wsCovered (run (fun _ => StoreResult.notFound)
        [Op.put (some 1) [0] [2]]).finalVersionizedValue tw.2) = true) ∧
    (mergeToFinal (run (fun _ => StoreResult.notFound) [Op.put (some 1) [0] [2]])
      (some 1)).1 ≠ MergeResult.nilDeref :=
  ⟨(C10_final_coverage (fun _ => StoreResult.notFound) [Op.put (some 1) [0] [2]]).1,
   (C10_final_coverage (fun _ => StoreResult.notFound) [Op.put (some 1) [0] [2]]).2 (some 1)⟩

end MvccDb
